import Mathlib

/-!
Verification of the S5 CID codec of s5-utils-nodejs.

Modelling conventions, used throughout:
with `List Char`, byte buffers (Node `Buffer` / `Uint8Array`) with
`List Nat` whose elements are byte values, and JavaScript numbers with
`Int` wherever the source can reach the 32-bit coercions of the
JavaScript bitwise operators, with `Nat` elsewhere.  A thrown
JavaScript `Error` is modelled by `Except Err`; each distinct thrown
message gets one constructor of `Err`.
-/

namespace S5

/-- One constructor per distinct message thrown with `new Error(...)` in the
source: the base58 decoder message, the trailing messages of
`decodeCIDWithPrefixZ` and `decodeCIDWithPrefixU`, and the shared
message of the CID-level converters and extractors. -/
inductive Err
  | invalidBase58Bitcoin
  | invalidInputAddress
  | invalidUCidFormat
  | invalidCIDInputAddress
  deriving DecidableEq, Repr

deriving instance DecidableEq for Except

/-- JavaScript `ALPHABET.indexOf(c)`, with `none` in place of `-1`. -/
def indexOfChar : List Char → Char → Option Nat
  | [], _ => none
  | a :: as, c => if a = c then some 0 else (indexOfChar as c).map (· + 1)

/-- JavaScript ToInt32, the coercion the `>>` operator applies to its operand. -/
def toInt32 (n : Int) : Int :=
  let m := n.emod 4294967296
  if m < 2147483648 then m else m - 4294967296

/-- JavaScript `v >> 8`: ToInt32 followed by an arithmetic (floor) shift by 8. -/
def jsShr8 (v : Int) : Int := (toInt32 v).fdiv 256

/-- Storing JavaScript `v % 256` (truncated remainder, sign of the dividend)
into a Node `Buffer` cell, which coerces the stored value to an unsigned
byte. -/
def jsByte (v : Int) : Nat := ((v.tmod 256).emod 256).toNat

/-- Loop of `numToBuf` (src/unnamed/part_001): at each index, stop if the
value reached 0, otherwise store the low byte and shift the value right by
8 with the JavaScript `>>` operator.  The `Nat` argument is the number of
cells still available in the allocated buffer. -/
def numToBufLoop (value : Int) : Nat → List Nat
  | 0 => []
  | r + 1 => if value = 0 then [] else jsByte value :: numToBufLoop (jsShr8 value) r

/-- Embedding of `numToBuf(value, bufferSize)` (src/unnamed/part_001 lines
21-36): the slice of the allocated buffer that the loop actually wrote. -/
def numToBuf (value : Int) (bufferSize : Nat) : List Nat :=
  numToBufLoop value bufferSize

/-- Embedding of `bufToNum(buffer)` (src/unnamed/part_001 lines 44-53): folds
the bytes from the highest index down with exact BigInt arithmetic
(`value = (value << 8n) + byte`), i.e. reads the buffer as a little-endian
unsigned integer; the final `Number(value)` conversion is exact below 2^53
and our uses stay in that range. -/
def bufToNum (buffer : List Nat) : Nat :=
  buffer.foldr (fun b acc => acc * 256 + b) 0

/-! Generic positional-numeral machinery.  Digit lists are over base
`b2 + 2` (the offset keeps every base at least 2 without side conditions):
`beVal` reads a big-endian digit list, `leVal` a little-endian one,
`digitsLE` produces the canonical little-endian digits of a number (no
trailing zeros), and `lastNZ` states that a little-endian digit list has
no trailing zeros, i.e. is minimal. -/
def beValFrom (b2 acc : Nat) : List Nat → Nat
  | [] => acc
  | d :: ds => beValFrom b2 (acc * (b2 + 2) + d) ds

def beVal (b2 : Nat) (l : List Nat) : Nat := beValFrom b2 0 l

def leVal (b2 : Nat) : List Nat → Nat
  | [] => 0
  | d :: ds => d + (b2 + 2) * leVal b2 ds

def digitsLE (b2 n : Nat) : List Nat :=
  if h : n = 0 then [] else n % (b2 + 2) :: digitsLE b2 (n / (b2 + 2))
termination_by n
decreasing_by exact Nat.div_lt_self (Nat.pos_of_ne_zero h) (by omega)

def lastNZ : List Nat → Prop
  | [] => True
  | [d] => d ≠ 0
  | _ :: d :: ds => lastNZ (d :: ds)

/-! Base58 (Bitcoin) codec, src/src/utils/utilsbox.js lines 156-236. -/

/-- The Base58 alphabet of the source (digits and letters without 0, O, I, l). -/
def ALPHABET : List Char :=
  ['1', '2', '3', '4', '5', '6', '7', '8', '9', 'A', 'B', 'C', 'D', 'E', 'F',
   'G', 'H', 'J', 'K', 'L', 'M', 'N', 'P', 'Q', 'R', 'S', 'T', 'U', 'V', 'W',
   'X', 'Y', 'Z', 'a', 'b', 'c', 'd', 'e', 'f', 'g', 'h', 'i', 'j', 'k', 'm',
   'n', 'o', 'p', 'q', 'r', 's', 't', 'u', 'v', 'w', 'x', 'y', 'z']

/-- `while (carry) { digits.push(carry % 58); carry = (carry / 58) | 0; }`,
with an explicit iteration bound: the carry strictly decreases, so the
initial carry bounds the number of iterations. -/
def pushCarry58Go : Nat → Nat → List Nat
  | 0, _ => []
  | fuel + 1, carry =>
    if carry = 0 then [] else carry % 58 :: pushCarry58Go fuel (carry / 58)

def pushCarry58 (carry : Nat) : List Nat := pushCarry58Go carry carry

/-- The carry loop of `encodeBase58BTC`: `digits[j] += carry; carry =
(digits[j] / 58) | 0; digits[j] %= 58;` over the existing digits, then the
push loop for the remaining carry. -/
def carryRun58 : List Nat → Nat → List Nat
  | [], carry => pushCarry58 carry
  | d :: ds, carry => (d + carry) % 58 :: carryRun58 ds ((d + carry) / 58)

/-- One iteration of the byte loop of `encodeBase58BTC`: `digits[j] <<= 8`
for every digit (a 32-bit JavaScript shift, hence the mod 2^32),
`digits[0] += bytes[i]`, then the carry loop starting from carry 0.  The
digits array starts as `[0]` and never becomes empty, so the first match arm
is unreachable. -/
def b58Step (digits : List Nat) (b : Nat) : List Nat :=
  match digits.map (fun d => (d * 256) % 4294967296) with
  | [] => carryRun58 [b] 0
  | d0 :: rest => carryRun58 ((d0 + b) :: rest) 0

/-- `while (digits[digits.length - 1] === 0) digits.pop()` -/
def stripTrailingZeros (l : List Nat) : List Nat :=
  (l.reverse.dropWhile (fun d => d == 0)).reverse

/-- `ALPHABET[d]` for a digit `d < 58`. -/
def alpha58 (d : Nat) : Char := ALPHABET.getD d '?'

/-- Embedding of `encodeBase58BTC(bytes)` (utilsbox.js lines 165-200):
convert the big-endian byte value into little-endian base-58 digits one
input byte at a time, strip the most significant zeros, and emit the digits
most significant first through the alphabet. -/
def encodeBase58BTC (bytes : List Nat) : List Char :=
  ((stripTrailingZeros (bytes.foldl b58Step [0])).reverse).map alpha58

/-- `while (value > 0) { bytes.push(value & 0xff); value >>= 8; }`, with an
explicit iteration bound as in `pushCarry58`. -/
def pushBytesGo : Nat → Nat → List Nat
  | 0, _ => []
  | fuel + 1, v => if v = 0 then [] else v % 256 :: pushBytesGo fuel (v / 256)

def pushBytes (v : Nat) : List Nat := pushBytesGo v v

/-- Inner loop of `decodeBase58BTC` for one character value: `value +=
bytes[j] * 58; bytes[j] = value & 0xff; value >>= 8;` over the little-endian
byte accumulator, then the push loop for the remaining value. -/
def b58DecStep : List Nat → Nat → List Nat
  | [], v => pushBytes v
  | b :: bs, v => (v + b * 58) % 256 :: b58DecStep bs ((v + b * 58) / 256)

/-- Character loop of `decodeBase58BTC`: look each character up in the
alphabet (throwing on a miss) and fold it into the byte accumulator. -/
def b58DecLoop : List Char → List Nat → Except Err (List Nat)
  | [], bytes => .ok bytes
  | c :: cs, bytes =>
    match indexOfChar ALPHABET c with
    | none => .error .invalidBase58Bitcoin
    | some value => b58DecLoop cs (b58DecStep bytes value)

/-- Embedding of `decodeBase58BTC(str)` (utilsbox.js lines 209-236): run the
character loop over the string and reverse the little-endian byte list into
the big-endian result buffer. -/
def decodeBase58BTC (str : List Char) : Except Err (List Nat) :=
  (b58DecLoop str []).map List.reverse

/-! Base32 RFC 4648 codec, utilsbox.js lines 238-304.  The JavaScript
bitwise operators work on 32-bit patterns; the accumulator `value` is
modelled as its unsigned 32-bit pattern (a `Nat` below 2^32), `<< k` as
multiplication mod 2^32, `>>> k` as division, `& m` as mod `m + 1`, and
`|` as `Nat.lor`. -/
def BASE32_ALPHABET : List Char :=
  ['A', 'B', 'C', 'D', 'E', 'F', 'G', 'H', 'I', 'J', 'K', 'L', 'M', 'N', 'O',
   'P', 'Q', 'R', 'S', 'T', 'U', 'V', 'W', 'X', 'Y', 'Z', '2', '3', '4', '5',
   '6', '7']

/-- `BASE32_ALPHABET.charAt(i)` -/
def b32chr (i : Nat) : Char := BASE32_ALPHABET.getD i '?'

/-- `BASE32_ALPHABET.indexOf(c)` as the 32-bit pattern the bitwise OR of
`decodeBase32RFC` sees: the index itself, or the pattern of `-1` on a miss. -/
def b32pat (c : Char) : Nat :=
  match indexOfChar BASE32_ALPHABET c with
  | some i => i
  | none => 4294967295

/-- Inner `while (bits >= 5)` loop of `encodeBase32RFC`: emit
`(value >>> (bits - 5)) & 31` until fewer than 5 bits remain.  The loop
changes only `bits`; the returned pair is the emitted characters and the
final `bits`. -/
def b32EmitGo : Nat → Nat → Nat → List Char × Nat
  | 0, _, bits => ([], bits)
  | fuel + 1, value, bits =>
    if 5 ≤ bits then
      (b32chr (value / 2 ^ (bits - 5) % 32) :: (b32EmitGo fuel value (bits - 5)).1,
       (b32EmitGo fuel value (bits - 5)).2)
    else ([], bits)

def b32Emit (value bits : Nat) : List Char × Nat := b32EmitGo bits value bits

/-- Byte loop of `encodeBase32RFC`: `value = (value << 8) | data[i]`,
`bits += 8`, then the emit loop; returns all emitted characters plus the
final `(value, bits)` state. -/
def b32Run : List Nat → Nat → Nat → List Char × Nat × Nat
  | [], value, bits => ([], value, bits)
  | d :: ds, value, bits =>
    let value1 := Nat.lor (value * 256 % 4294967296) d
    let e := b32Emit value1 (bits + 8)
    let rest := b32Run ds value1 e.2
    (e.1 ++ rest.1, rest.2)

/-- Embedding of `encodeBase32RFC(data)` (utilsbox.js lines 247-272): the
byte loop, then, when bits remain, the final character
`(value << (5 - bits)) & 31`. -/
def encodeBase32RFC (data : List Nat) : List Char :=
  let r := b32Run data 0 0
  if 0 < r.2.2 then r.1 ++ [b32chr (r.2.1 * 2 ^ (5 - r.2.2) % 4294967296 % 32)]
  else r.1

/-- Character loop of `decodeBase32RFC` (utilsbox.js lines 280-304):
`value = (value << 5) | charIndex`, `bits += 5`, and an output byte
`(value >>> (bits - 8)) & 255` whenever at least 8 bits are available.
There is no alphabet check: a missing character contributes the pattern of
`-1`.  Collecting the written bytes in order models the indexed writes plus
the final `slice(0, index)`. -/
def b32DecGo : List Char → Nat → Nat → List Nat
  | [], _, _ => []
  | c :: cs, value, bits =>
    let value1 := Nat.lor (value * 32 % 4294967296) (b32pat c)
    if 8 ≤ bits + 5 then
      value1 / 2 ^ (bits + 5 - 8) % 256 :: b32DecGo cs value1 (bits + 5 - 8)
    else b32DecGo cs value1 (bits + 5)

/-- Embedding of `decodeBase32RFC(encoded)`. -/
def decodeBase32RFC (encoded : List Char) : List Nat := b32DecGo encoded 0 0

/-! Base64 / base64url codec, utilsbox.js lines 306-347.  The source
delegates the heavy lifting to Node's built-in base64 codec
(`Buffer#toString('base64')` and `Buffer.from(str, 'base64')`).  Those
built-ins are modelled by `nodeBase64Encode` / `nodeBase64Decode`:
standard RFC 4648 base64 with `=` padding, which is what the built-ins
compute on the well-formed inputs these wrappers produce. -/
def B64_ALPHABET : List Char :=
  ['A', 'B', 'C', 'D', 'E', 'F', 'G', 'H', 'I', 'J', 'K', 'L', 'M', 'N', 'O',
   'P', 'Q', 'R', 'S', 'T', 'U', 'V', 'W', 'X', 'Y', 'Z', 'a', 'b', 'c', 'd',
   'e', 'f', 'g', 'h', 'i', 'j', 'k', 'l', 'm', 'n', 'o', 'p', 'q', 'r', 's',
   't', 'u', 'v', 'w', 'x', 'y', 'z', '0', '1', '2', '3', '4', '5', '6', '7',
   '8', '9', '+', '/']

def b64chr (i : Nat) : Char := B64_ALPHABET.getD i '?'

def b64val (c : Char) : Nat := (indexOfChar B64_ALPHABET c).getD 0

/-- Models Node `buf.toString('base64')`: RFC 4648 base64 with padding,
three input bytes per four output characters. -/
def nodeBase64Encode : List Nat → List Char
  | [] => []
  | [a] => [b64chr (a / 4), b64chr (a % 4 * 16), '=', '=']
  | [a, b] => [b64chr (a / 4), b64chr (a % 4 * 16 + b / 16), b64chr (b % 16 * 4), '=']
  | a :: b :: c :: rest =>
    b64chr (a / 4) :: b64chr (a % 4 * 16 + b / 16) :: b64chr (b % 16 * 4 + c / 64) ::
    b64chr (c % 64) :: nodeBase64Encode rest

/-- Models Node `Buffer.from(str, 'base64')` on well-formed padded base64:
four characters per three output bytes, with `=` padding cutting the last
group short. -/
def nodeBase64Decode : List Char → List Nat
  | c1 :: c2 :: c3 :: c4 :: rest =>
    if c3 = '=' then [b64val c1 * 4 + b64val c2 / 16]
    else if c4 = '=' then
      [b64val c1 * 4 + b64val c2 / 16, b64val c2 % 16 * 16 + b64val c3 / 4]
    else
      (b64val c1 * 4 + b64val c2 / 16) :: (b64val c2 % 16 * 16 + b64val c3 / 4) ::
      ((b64val c3 % 4 * 64 + b64val c4) :: nodeBase64Decode rest)
  | _ => []

/-- Embedding of `encodeBase64URL(input)` (utilsbox.js lines 312-318):
base64-encode, then `.replace(/=/g, '')`, `.replace(/\+/g, '-')`,
`.replace(/\//g, '_')`. -/
def encodeBase64URL (input : List Nat) : List Char :=
  (((nodeBase64Encode input).filter (fun c => c != '=')).map
    (fun c => if c = '+' then '-' else c)).map
    (fun c => if c = '/' then '_' else c)

/-- Embedding of `decodeBase64URL(input)` (utilsbox.js lines 326-347):
swap each `-` back to `+` and each `_` back to a slash, re-add `=` padding
up to a multiple of four, base64-decode; the final latin1 / `charCodeAt`
pass is the identity on the decoded bytes. -/
def decodeBase64URL (input : List Char) : List Nat :=
  let input1 := (input.map (fun c => if c = '-' then '+' else c)).map
    (fun c => if c = '_' then '/' else c)
  let input2 := if 0 < input1.length % 4
    then input1 ++ List.replicate (4 - input1.length % 4) '='
    else input1
  nodeBase64Decode input2

/-! CID layer: src/unnamed/part_001 (tools) and src/src/utils/file.js,
with the tag constants of src/src/utils/constants.js. -/

/-- JavaScript `toLowerCase` on one character (ASCII, which is all the
source feeds it). -/
def jsToLower (c : Char) : Char :=
  if 'A' ≤ c ∧ c ≤ 'Z' then Char.ofNat (c.toNat + 32) else c

/-- JavaScript `toUpperCase` on one character (ASCII). -/
def jsToUpper (c : Char) : Char :=
  if 'a' ≤ c ∧ c ≤ 'z' then Char.ofNat (c.toNat - 32) else c

/-- The regex test for a lowercase letter anywhere in the string. -/
def hasLowerCase (s : List Char) : Bool :=
  s.any fun c => decide ('a' ≤ c) && decide (c ≤ 'z')

/-- The regex test for an uppercase letter anywhere in the string. -/
def hasUpperCase (s : List Char) : Bool :=
  s.any fun c => decide ('A' ≤ c) && decide (c ≤ 'Z')

/-- CID type tags registered in src/src/utils/constants.js. -/
def cidTypeRaw : Nat := 0x26

def cidTypeMetadataMedia : Nat := 0xc5

def cidTypeMetadataWebApp : Nat := 0x59

def cidTypeResolver : Nat := 0x25

def cidTypeUserIdentity : Nat := 0x77

def cidTypeBridge : Nat := 0x3a

def cidTypeEncrypted : Nat := 0xae

/-- BLAKE3 with default 256-bit output (constants.js). -/
def mhashBlake3Default : Nat := 0x1f

def registeredCidTypes : List Nat :=
  [cidTypeRaw, cidTypeMetadataMedia, cidTypeMetadataWebApp, cidTypeResolver,
   cidTypeUserIdentity, cidTypeBridge, cidTypeEncrypted]

/-- Embedding of `encodeCIDWithPrefixZ(bytes)` (part_001 lines 61-74): both
arms of the length-38 check are identical. -/
def encodeCIDWithPrefixZ (bytes : List Nat) : List Char :=
  if bytes.length = 38 then 'z' :: encodeBase58BTC bytes
  else 'z' :: encodeBase58BTC bytes

/-- Embedding of `decodeCIDWithPrefixZ(cid)` (part_001 lines 83-96): the
first two branches cover every input (an empty string has no first
character, so `cid[0] !== 'z'` holds), leaving the trailing throw dead. -/
def decodeCIDWithPrefixZ (cid : List Char) : Except Err (List Nat) :=
  if cid.head? = some 'z' then decodeBase58BTC (cid.drop 1)
  else if cid.head? ≠ some 'z' then decodeBase58BTC cid
  else Except.error Err.invalidInputAddress

/-- Embedding of `encodeCIDWithPrefixU(bytes)` (part_001 lines 104-115). -/
def encodeCIDWithPrefixU (bytes : List Nat) : List Char :=
  if bytes.length = 38 then 'u' :: encodeBase64URL bytes
  else 'u' :: encodeBase64URL bytes

/-- Embedding of `decodeCIDWithPrefixU(cid)` (part_001 lines 124-138);
`Buffer.from` on the decoded bytes is the identity. -/
def decodeCIDWithPrefixU (cid : List Char) : Except Err (List Nat) :=
  if cid.head? = some 'u' then Except.ok (decodeBase64URL (cid.drop 1))
  else if cid.head? ≠ some 'u' then Except.ok (decodeBase64URL cid)
  else Except.error Err.invalidUCidFormat

/-- Embedding of `encodeCIDWithPrefixB(bytes)` (part_001 lines 146-154). -/
def encodeCIDWithPrefixB (bytes : List Nat) : List Char :=
  if bytes.length = 38 then 'b' :: (encodeBase32RFC bytes).map jsToLower
  else 'b' :: (encodeBase32RFC bytes).map jsToLower

/-- First if-block of `decodeCIDWithPrefixB`: on a `B` prefix with some
uppercase letter, lowercase the whole string and strip the prefix. -/
def decodeBStep1 (cid : List Char) : List Char :=
  if cid.head? = some 'B' ∧ hasUpperCase cid
  then (cid.map jsToLower).drop 1 else cid

/-- Second if-block: on a `b` prefix with some lowercase letter, strip the
prefix. -/
def decodeBStep2 (cid1 : List Char) : List Char :=
  if cid1.head? = some 'b' ∧ hasLowerCase cid1 then cid1.drop 1 else cid1

/-- Third if-block: uppercase everything when lowercase letters remain. -/
def decodeBStep3 (cid2 : List Char) : List Char :=
  if hasLowerCase cid2 then cid2.map jsToUpper else cid2

/-- Embedding of `decodeCIDWithPrefixB(cid)` (part_001 lines 165-181): the
three sequential reassignments of `cid`, then the base32 decode. -/
def decodeCIDWithPrefixB (cid : List Char) : List Nat :=
  decodeBase32RFC (decodeBStep3 (decodeBStep2 (decodeBStep1 cid)))

/-- `.replace(/=+$/, '')`: strip trailing `=` characters. -/
def stripTrailingEq (s : List Char) : List Char :=
  (s.reverse.dropWhile (fun c => c == '=')).reverse

/-- Embedding of `convertB58btcToB32rfcCid(cid)` (part_001 lines 189-198). -/
def convertB58btcToB32rfcCid (cid : List Char) : Except Err (List Char) := do
  let decoded ← decodeBase58BTC (cid.drop 1)
  pure ('b' :: (stripTrailingEq (encodeBase32RFC decoded)).map jsToLower)

/-- Models Node `Buffer.from(str, 'base64url')` as used by
`convertB64urlToB32rfcCid`: the base64url character swap plus padded
base64 decoding, i.e. exactly what `decodeBase64URL` computes. -/
def nodeBufferFromBase64url (s : List Char) : List Nat := decodeBase64URL s

/-- Embedding of `convertB64urlToB32rfcCid(cid)` (part_001 lines 257-266). -/
def convertB64urlToB32rfcCid (cid : List Char) : List Char :=
  'b' :: (stripTrailingEq
    (encodeBase32RFC (nodeBufferFromBase64url (cid.drop 1)))).map jsToLower

/-- Case-insensitive literal prefix match (the regex carries the `i`
flag); returns the rest of the string after the prefix. -/
def matchPrefixCI : List Char → List Char → Option (List Char)
  | [], rest => some rest
  | _ :: _, [] => none
  | p :: ps, c :: cs => if jsToLower c = jsToLower p then matchPrefixCI ps cs else none

/-- The capture of the regex of `getSubdomainFromUrl` once the protocol
part is consumed: the maximal run of characters other than `.` and the
slash, provided it is nonempty and followed by a literal dot.  Shorter
runs end at another such character, never at a dot, so the maximal run is
the only backtracking candidate. -/
def labelBeforeDot (s : List Char) : Option (List Char) :=
  let run := s.takeWhile (fun c => !(c == '.') && !(c == '/'))
  if 0 < run.length ∧ (s.drop run.length).head? = some '.' then some run else none

def httpsProto : List Char := ['h', 't', 't', 'p', 's', ':', '/', '/']

def httpProto : List Char := ['h', 't', 't', 'p', ':', '/', '/']

/-- Embedding of `getSubdomainFromUrl(url)` (part_001 lines 342-348): the
greedy optional protocol group tries `https://` first, then `http://`,
then nothing, and the first candidate whose tail starts with a
dot-terminated label wins. -/
def getSubdomainFromUrl (url : List Char) : Option (List Char) :=
  ((matchPrefixCI httpsProto url).bind labelBeforeDot).orElse fun _ =>
    ((matchPrefixCI httpProto url).bind labelBeforeDot).orElse fun _ =>
      labelBeforeDot url

/-- JavaScript `cid.startsWith('http')`. -/
def startsWithHttp (cid : List Char) : Bool :=
  match cid with
  | 'h' :: 't' :: 't' :: 'p' :: _ => true
  | _ => false

/-- Embedding of `convertDownloadDirectoryInputCid(cid)` (part_001 lines
292-319): URL inputs go through the subdomain lookup, other inputs through
the per-prefix converters, and anything else (including a URL without a
regex match) throws. -/
def convertDownloadDirectoryInputCid (cid : List Char) : Except Err (List Char) :=
  if startsWithHttp cid then
    match getSubdomainFromUrl cid with
    | some subdomain => Except.ok subdomain
    | none => Except.error Err.invalidCIDInputAddress
  else if cid.head? = some 'z' then convertB58btcToB32rfcCid cid
  else if cid.head? = some 'u' then Except.ok (convertB64urlToB32rfcCid cid)
  else if cid.head? = some 'b' then Except.ok cid
  else Except.error Err.invalidCIDInputAddress

/-- Embedding of `generateMHashFromB3hash(b3hash)` (file.js lines 79-85). -/
def generateMHashFromB3hash (b3hash : List Nat) : List Nat :=
  mhashBlake3Default :: b3hash

/-- Embedding of `extractB3hashFromMHash(mHash)` (file.js lines 93-99). -/
def extractB3hashFromMHash (mHash : List Nat) : List Nat := mHash.drop 1

/-- Embedding of `generateCIDFromMHash(mHash, filePath)` (file.js lines
108-123); the file-system call `fs.statSync(filePath).size` is modelled by
the `fileSize` parameter. -/
def generateCIDFromMHash (mHash : List Nat) (fileSize : Nat) : List Nat :=
  cidTypeRaw :: (mHash ++ numToBuf (fileSize : Int) 16)

/-- The `while (hashSize !== 33)` search shared by `extractMHashFromCID`
and `extractB3hashFromCID` (file.js lines 131-148 and 176-195), with
explicit fuel: after the initial `hashSize = cid.length - 1`, each
iteration sets `hashSize = cid.length - i` for the next `i`.  JavaScript
numbers go negative here, hence `Int`.  `none` means the loop has not
terminated within the fuel; for buffers shorter than 34 bytes it never
terminates. -/
def mhashSearch (len i hashSize : Int) : Nat → Option Int
  | 0 => none
  | fuel + 1 =>
    if hashSize = 33 then some hashSize
    else mhashSearch len (i + 1) (len - (i + 1)) fuel

/-- Embedding of `extractMHashFromCID(cid)` (file.js lines 131-148):
`slice(1, 1 + hashSize)` after the search; `none` models the diverging
search. -/
def extractMHashFromCID (cid : List Nat) (fuel : Nat) : Option (List Nat) :=
  match mhashSearch (cid.length : Int) 0 ((cid.length : Int) - 1) fuel with
  | some hashSize => some ((cid.drop 1).take hashSize.toNat)
  | none => none

/-- Embedding of `extractRawSizeFromCID(cid)` (file.js lines 156-168). -/
def extractRawSizeFromCID (cid : List Nat) : Nat :=
  bufToNum (cid.drop (if 34 ≤ cid.length then 34 else 33))

/-- Embedding of `extractB3hashFromCID(cid)` (file.js lines 176-195): the
same search and slice, then drop the multihash algorithm byte. -/
def extractB3hashFromCID (cid : List Nat) (fuel : Nat) : Option (List Nat) :=
  match mhashSearch (cid.length : Int) 0 ((cid.length : Int) - 1) fuel with
  | some hashSize => some (extractB3hashFromMHash ((cid.drop 1).take hashSize.toNat))
  | none => none

/-- `buffer.toString('hex')`. -/
def hexChar (n : Nat) : Char :=
  if n < 10 then Char.ofNat (48 + n) else Char.ofNat (87 + n)

def toHex (bytes : List Nat) : List Char :=
  (bytes.map (fun b => [hexChar (b / 16), hexChar (b % 16)])).flatten

/-- Embedding of `convertS5CidToB3hashHex(cid)` (file.js lines 321-360):
each prefix branch decodes, reads the size field, and extracts the digest
only when the size is nonzero; otherwise `b3hash` stays null and the final
throw fires.  `none` models the non-termination of the inner hash-size
search. -/
def convertS5CidToB3hashHex (cid : List Char) (fuel : Nat) :
    Option (Except Err (List Char)) :=
  if cid.head? = some 'z' then
    match decodeCIDWithPrefixZ cid with
    | Except.error e => some (Except.error e)
    | Except.ok zcidBytes =>
      if extractRawSizeFromCID zcidBytes ≠ 0 then
        match extractB3hashFromCID zcidBytes fuel with
        | some h => some (Except.ok (toHex h))
        | none => none
      else some (Except.error Err.invalidCIDInputAddress)
  else if cid.head? = some 'u' then
    match decodeCIDWithPrefixU cid with
    | Except.error e => some (Except.error e)
    | Except.ok ucidBytes =>
      if extractRawSizeFromCID ucidBytes ≠ 0 then
        match extractB3hashFromCID ucidBytes fuel with
        | some h => some (Except.ok (toHex h))
        | none => none
      else some (Except.error Err.invalidCIDInputAddress)
  else if cid.head? = some 'b' then
    (fun bcidBytes =>
      if extractRawSizeFromCID bcidBytes ≠ 0 then
        match extractB3hashFromCID bcidBytes fuel with
        | some h => some (Except.ok (toHex h))
        | none => none
      else some (Except.error Err.invalidCIDInputAddress))
      (decodeCIDWithPrefixB cid)
  else some (Except.error Err.invalidCIDInputAddress)

/-- The three textual CID forms of the spec. -/
inductive CidForm
  | z
  | u
  | b
  deriving DecidableEq

/-- The spec's `encodeCID(prefix, bytes)` dispatch onto the three encoders. -/
def encodeCID : CidForm → List Nat → List Char
  | CidForm.z, bytes => encodeCIDWithPrefixZ bytes
  | CidForm.u, bytes => encodeCIDWithPrefixU bytes
  | CidForm.b, bytes => encodeCIDWithPrefixB bytes

/-- The spec's `decodeCID` dispatch onto the three decoders; the total
base32 decoder is wrapped in `Except.ok`. -/
def decodeCID : CidForm → List Char → Except Err (List Nat)
  | CidForm.z, cid => decodeCIDWithPrefixZ cid
  | CidForm.u, cid => decodeCIDWithPrefixU cid
  | CidForm.b, cid => Except.ok (decodeCIDWithPrefixB cid)

theorem jsByte_coe (v : Nat) : jsByte (v : Int) = v % 256 := by
  unfold jsByte
  have h1 : (v : Int).tmod 256 = ((v % 256 : Nat) : Int) := by
    exact_mod_cast (Int.ofNat_tmod v 256).symm
  rw [h1]
  have h2 : ((v % 256 : Nat) : Int).emod 256 = ((v % 256 : Nat) : Int) := by
    apply Int.emod_eq_of_lt
    · exact Int.natCast_nonneg _
    · exact_mod_cast Nat.mod_lt v (by norm_num)
  rw [h2, Int.toNat_natCast]

theorem toInt32_coe (v : Nat) (h : v < 2147483648) : toInt32 (v : Int) = v := by
  unfold toInt32
  have h1 : (v : Int).emod 4294967296 = v := by
    apply Int.emod_eq_of_lt (Int.natCast_nonneg _)
    exact_mod_cast Nat.lt_trans h (by norm_num)
  simp only [h1]
  rw [if_pos (by exact_mod_cast h)]

theorem jsShr8_coe (v : Nat) (h : v < 2147483648) :
    jsShr8 (v : Int) = ((v / 256 : Nat) : Int) := by
  unfold jsShr8
  rw [toInt32_coe v h]
  exact (Int.ofNat_fdiv v 256).symm

theorem numToBufLoop_small : ∀ (r : Nat) (v : Nat), v < 2147483648 → v < 256 ^ r →
    bufToNum (numToBufLoop (v : Int) r) = v := by
  intro r
  induction r with
  | zero =>
    intro v _ h2
    interval_cases v
    rfl
  | succ r ih =>
    intro v h1 h2
    by_cases hv : v = 0
    · subst hv; simp [numToBufLoop, bufToNum]
    · have hvz : (v : Int) ≠ 0 := by exact_mod_cast hv
      have hstep : numToBufLoop (v : Int) (r + 1)
          = jsByte (v : Int) :: numToBufLoop (jsShr8 (v : Int)) r := by
        simp [numToBufLoop, hvz]
      rw [hstep, jsShr8_coe v h1, jsByte_coe]
      have hdivlt : v / 256 < 2147483648 := Nat.lt_of_le_of_lt (Nat.div_le_self v 256) h1
      have hdivpow : v / 256 < 256 ^ r := by
        rw [Nat.div_lt_iff_lt_mul (by norm_num : 0 < 256)]
        calc v < 256 ^ (r + 1) := h2
        _ = 256 ^ r * 256 := by rw [pow_succ]
      have hrec := ih (v / 256) hdivlt hdivpow
      show bufToNum (numToBufLoop ((v / 256 : Nat) : Int) r) * 256 + v % 256 = v
      rw [hrec]
      omega

theorem beValFrom_eq (b2 : Nat) : ∀ (l : List Nat) (acc : Nat),
    beValFrom b2 acc l = acc * (b2 + 2) ^ l.length + beVal b2 l := by
  intro l
  induction l with
  | nil => intro acc; simp [beValFrom, beVal]
  | cons d ds ih =>
    intro acc
    show beValFrom b2 (acc * (b2 + 2) + d) ds = _
    rw [ih]
    have hbe : beVal b2 (d :: ds) = d * (b2 + 2) ^ ds.length + beVal b2 ds := by
      show beValFrom b2 (0 * (b2 + 2) + d) ds = _
      rw [ih]
      ring
    rw [hbe]
    simp [List.length_cons, pow_succ]
    ring

theorem beVal_cons (b2 d : Nat) (ds : List Nat) :
    beVal b2 (d :: ds) = d * (b2 + 2) ^ ds.length + beVal b2 ds := by
  show beValFrom b2 (0 * (b2 + 2) + d) ds = _
  rw [beValFrom_eq]
  ring

theorem beValFrom_append (b2 : Nat) : ∀ (l1 l2 : List Nat) (acc : Nat),
    beValFrom b2 acc (l1 ++ l2) = beValFrom b2 (beValFrom b2 acc l1) l2 := by
  intro l1
  induction l1 with
  | nil => intro l2 acc; rfl
  | cons d ds ih => intro l2 acc; exact ih l2 _

theorem beVal_append (b2 : Nat) (l1 l2 : List Nat) :
    beVal b2 (l1 ++ l2) = beVal b2 l1 * (b2 + 2) ^ l2.length + beVal b2 l2 := by
  show beValFrom b2 0 (l1 ++ l2) = _
  rw [beValFrom_append, beValFrom_eq]
  rfl

theorem beVal_lt (b2 : Nat) : ∀ (l : List Nat), (∀ d ∈ l, d < b2 + 2) →
    beVal b2 l < (b2 + 2) ^ l.length := by
  intro l
  induction l with
  | nil => intro _; simp [beVal, beValFrom]
  | cons d ds ih =>
    intro h
    rw [beVal_cons]
    have hd : d < b2 + 2 := h d (List.mem_cons_self d ds)
    have hds : beVal b2 ds < (b2 + 2) ^ ds.length :=
      ih (fun x hx => h x (List.mem_cons_of_mem d hx))
    calc d * (b2 + 2) ^ ds.length + beVal b2 ds
        < d * (b2 + 2) ^ ds.length + (b2 + 2) ^ ds.length := by omega
      _ = (d + 1) * (b2 + 2) ^ ds.length := by ring
      _ ≤ (b2 + 2) * (b2 + 2) ^ ds.length := by
          exact Nat.mul_le_mul_right _ (by omega)
      _ = (b2 + 2) ^ (ds.length + 1) := by ring
      _ = (b2 + 2) ^ (d :: ds).length := by rw [List.length_cons]

theorem beVal_inj (b2 : Nat) : ∀ (l1 l2 : List Nat), l1.length = l2.length →
    (∀ d ∈ l1, d < b2 + 2) → (∀ d ∈ l2, d < b2 + 2) →
    beVal b2 l1 = beVal b2 l2 → l1 = l2 := by
  intro l1
  induction l1 with
  | nil =>
    intro l2 hlen _ _ _
    exact (List.length_eq_zero.mp hlen.symm).symm
  | cons d ds ih =>
    intro l2 hlen h1 h2 hval
    match l2 with
    | [] => simp at hlen
    | e :: es =>
      have hlen' : ds.length = es.length := by simpa using hlen
      rw [beVal_cons, beVal_cons, hlen'] at hval
      have hv1 : beVal b2 ds < (b2 + 2) ^ es.length := by
        rw [← hlen']
        exact beVal_lt b2 ds (fun x hx => h1 x (List.mem_cons_of_mem d hx))
      have hv2 : beVal b2 es < (b2 + 2) ^ es.length :=
        beVal_lt b2 es (fun x hx => h2 x (List.mem_cons_of_mem e hx))
      have hP : 0 < (b2 + 2) ^ es.length := Nat.pos_pow_of_pos _ (by omega)
      have hde : d = e := by
        have hd' : (d * (b2 + 2) ^ es.length + beVal b2 ds) / (b2 + 2) ^ es.length = d := by
          rw [Nat.mul_comm d, Nat.mul_add_div hP, Nat.div_eq_of_lt hv1]
          omega
        have he' : (e * (b2 + 2) ^ es.length + beVal b2 es) / (b2 + 2) ^ es.length = e := by
          rw [Nat.mul_comm e, Nat.mul_add_div hP, Nat.div_eq_of_lt hv2]
          omega
        rw [← hd', ← he', hval]
      subst hde
      have hrest : beVal b2 ds = beVal b2 es := by omega
      rw [ih es hlen' (fun x hx => h1 x (List.mem_cons_of_mem d hx))
        (fun x hx => h2 x (List.mem_cons_of_mem d hx)) hrest]

theorem digitsLE_lt (b2 : Nat) : ∀ (n : Nat), ∀ d ∈ digitsLE b2 n, d < b2 + 2 := by
  intro n
  induction n using Nat.strong_induction_on with
  | _ n ih =>
    intro d hd
    rw [digitsLE] at hd
    split at hd
    · simp at hd
    · rename_i hn
      rcases List.mem_cons.mp hd with h | h
      · subst h; exact Nat.mod_lt _ (by omega)
      · exact ih (n / (b2 + 2)) (Nat.div_lt_self (Nat.pos_of_ne_zero hn) (by omega)) d h

theorem digitsLE_eq_nil (b2 n : Nat) : digitsLE b2 n = [] ↔ n = 0 := by
  constructor
  · intro h
    by_contra hn
    rw [digitsLE, dif_neg hn] at h
    simp at h
  · intro h; subst h; rw [digitsLE]; simp

theorem digitsLE_lastNZ (b2 : Nat) : ∀ (n : Nat), lastNZ (digitsLE b2 n) := by
  intro n
  induction n using Nat.strong_induction_on with
  | _ n ih =>
    rw [digitsLE]
    split
    · trivial
    · rename_i hn
      cases htail : digitsLE b2 (n / (b2 + 2)) with
      | nil =>
        have hdiv : n / (b2 + 2) = 0 := (digitsLE_eq_nil b2 _).mp htail
        have hlt : n < b2 + 2 := (Nat.div_eq_zero_iff (by omega)).mp hdiv
        show lastNZ [n % (b2 + 2)]
        show n % (b2 + 2) ≠ 0
        rw [Nat.mod_eq_of_lt hlt]
        exact hn
      | cons e es =>
        have := ih (n / (b2 + 2)) (Nat.div_lt_self (Nat.pos_of_ne_zero hn) (by omega))
        rw [htail] at this
        exact this

theorem leVal_digitsLE (b2 : Nat) : ∀ (n : Nat), leVal b2 (digitsLE b2 n) = n := by
  intro n
  induction n using Nat.strong_induction_on with
  | _ n ih =>
    rw [digitsLE]
    split
    · rename_i hn; subst hn; rfl
    · rename_i hn
      show n % (b2 + 2) + (b2 + 2) * leVal b2 (digitsLE b2 (n / (b2 + 2))) = n
      rw [ih (n / (b2 + 2)) (Nat.div_lt_self (Nat.pos_of_ne_zero hn) (by omega))]
      exact Nat.mod_add_div n (b2 + 2)

theorem leVal_pos (b2 : Nat) : ∀ (l : List Nat), lastNZ l → l ≠ [] → 0 < leVal b2 l := by
  intro l
  induction l with
  | nil => intro _ h; exact absurd rfl h
  | cons d ds ih =>
    intro hnz _
    cases ds with
    | nil =>
      have hd : d ≠ 0 := hnz
      show 0 < d + (b2 + 2) * 0
      omega
    | cons e es =>
      have htl : lastNZ (e :: es) := hnz
      have := ih htl (by simp)
      show 0 < d + (b2 + 2) * leVal b2 (e :: es)
      have hpos : 0 < leVal b2 (e :: es) := this
      positivity

theorem digitsLE_unique (b2 : Nat) : ∀ (l : List Nat), (∀ d ∈ l, d < b2 + 2) →
    lastNZ l → digitsLE b2 (leVal b2 l) = l := by
  intro l
  induction l with
  | nil => rw [leVal, digitsLE]; simp
  | cons d ds ih =>
    intro hlt hnz
    have hd : d < b2 + 2 := hlt d (List.mem_cons_self d ds)
    cases ds with
    | nil =>
      have hdnz : d ≠ 0 := hnz
      show digitsLE b2 (d + (b2 + 2) * leVal b2 []) = [d]
      rw [leVal]
      simp only [Nat.mul_zero, Nat.add_zero]
      rw [digitsLE, dif_neg hdnz, Nat.mod_eq_of_lt hd, Nat.div_eq_of_lt hd]
      rw [digitsLE]
      simp
    | cons e es =>
      have htl : lastNZ (e :: es) := hnz
      have hlt' : ∀ x ∈ e :: es, x < b2 + 2 :=
        fun x hx => hlt x (List.mem_cons_of_mem d hx)
      have hvpos : 0 < leVal b2 (e :: es) := leVal_pos b2 _ htl (by simp)
      show digitsLE b2 (d + (b2 + 2) * leVal b2 (e :: es)) = d :: e :: es
      have hne : d + (b2 + 2) * leVal b2 (e :: es) ≠ 0 := by positivity
      rw [digitsLE, dif_neg hne]
      have hmod : (d + (b2 + 2) * leVal b2 (e :: es)) % (b2 + 2) = d := by
        rw [Nat.add_mul_mod_self_left, Nat.mod_eq_of_lt hd]
      have hdiv : (d + (b2 + 2) * leVal b2 (e :: es)) / (b2 + 2) = leVal b2 (e :: es) := by
        rw [Nat.add_mul_div_left _ _ (by omega : 0 < b2 + 2), Nat.div_eq_of_lt hd]
        omega
      rw [hmod, hdiv, ih hlt' htl]

theorem pushCarry58Go_leVal : ∀ (fuel c : Nat), c ≤ fuel →
    leVal 56 (pushCarry58Go fuel c) = c := by
  intro fuel
  induction fuel with
  | zero => intro c hc; interval_cases c; rfl
  | succ fuel ih =>
    intro c hc
    show leVal 56 (if c = 0 then [] else c % 58 :: pushCarry58Go fuel (c / 58)) = c
    by_cases h : c = 0
    · rw [if_pos h]; subst h; rfl
    · rw [if_neg h]
      show c % 58 + (56 + 2) * leVal 56 (pushCarry58Go fuel (c / 58)) = c
      rw [ih (c / 58) (by omega)]
      omega

theorem pushCarry58_leVal (c : Nat) : leVal 56 (pushCarry58 c) = c :=
  pushCarry58Go_leVal c c le_rfl

theorem pushCarry58Go_lt : ∀ (fuel c : Nat), ∀ d ∈ pushCarry58Go fuel c, d < 58 := by
  intro fuel
  induction fuel with
  | zero => intro c d hd; simp [pushCarry58Go] at hd
  | succ fuel ih =>
    intro c d hd
    show d < 58
    by_cases h : c = 0
    · rw [show pushCarry58Go (fuel + 1) c = [] from by
        show (if c = 0 then _ else _) = _
        rw [if_pos h]] at hd
      simp at hd
    · rw [show pushCarry58Go (fuel + 1) c = c % 58 :: pushCarry58Go fuel (c / 58) from by
        show (if c = 0 then _ else _) = _
        rw [if_neg h]] at hd
      rcases List.mem_cons.mp hd with h1 | h1
      · subst h1; exact Nat.mod_lt _ (by omega)
      · exact ih _ d h1

theorem pushCarry58_lt (c : Nat) : ∀ d ∈ pushCarry58 c, d < 58 :=
  pushCarry58Go_lt c c

theorem carryRun58_leVal : ∀ (ds : List Nat) (c : Nat),
    leVal 56 (carryRun58 ds c) = leVal 56 ds + c := by
  intro ds
  induction ds with
  | nil => intro c; show leVal 56 (pushCarry58 c) = 0 + c; rw [pushCarry58_leVal]; omega
  | cons d ds ih =>
    intro c
    show (d + c) % 58 + (56 + 2) * leVal 56 (carryRun58 ds ((d + c) / 58)) =
      (d + (56 + 2) * leVal 56 ds) + c
    rw [ih]
    omega

theorem carryRun58_lt : ∀ (ds : List Nat) (c : Nat), ∀ d ∈ carryRun58 ds c, d < 58 := by
  intro ds
  induction ds with
  | nil => intro c d hd; exact pushCarry58_lt c d hd
  | cons e ds ih =>
    intro c d hd
    rcases List.mem_cons.mp hd with h1 | h1
    · subst h1; exact Nat.mod_lt _ (by omega)
    · exact ih _ d h1

theorem leVal_map256 : ∀ (l : List Nat), (∀ d ∈ l, d < 58) →
    leVal 56 (l.map (fun d => (d * 256) % 4294967296)) = 256 * leVal 56 l := by
  intro l
  induction l with
  | nil => intro _; rfl
  | cons d ds ih =>
    intro h
    have hd : d < 58 := h d (List.mem_cons_self d ds)
    have hsh : (d * 256) % 4294967296 = d * 256 := Nat.mod_eq_of_lt (by omega)
    show (d * 256) % 4294967296 + (56 + 2) * leVal 56 (ds.map _) = 256 * (d + (56 + 2) * leVal 56 ds)
    rw [hsh, ih (fun x hx => h x (List.mem_cons_of_mem d hx))]
    ring

theorem b58Step_leVal : ∀ (ds : List Nat) (b : Nat), (∀ d ∈ ds, d < 58) →
    leVal 56 (b58Step ds b) = leVal 56 ds * 256 + b := by
  intro ds b h
  cases ds with
  | nil =>
    show leVal 56 (carryRun58 [b] 0) = leVal 56 [] * 256 + b
    rw [carryRun58_leVal]
    show (b + (56 + 2) * leVal 56 []) + 0 = _
    simp [leVal]
  | cons d rest =>
    have hd : d < 58 := h d (List.mem_cons_self d rest)
    have hsh : (d * 256) % 4294967296 = d * 256 := Nat.mod_eq_of_lt (by omega)
    show leVal 56 (carryRun58 ((d * 256 % 4294967296 + b) :: rest.map _) 0) = _
    rw [carryRun58_leVal]
    show (d * 256 % 4294967296 + b + (56 + 2) * leVal 56 (rest.map _)) + 0 = _
    rw [hsh, leVal_map256 rest (fun x hx => h x (List.mem_cons_of_mem d hx))]
    show d * 256 + b + 58 * (256 * leVal 56 rest) + 0 = (d + (56 + 2) * leVal 56 rest) * 256 + b
    ring

theorem b58Step_lt : ∀ (ds : List Nat) (b : Nat), ∀ d ∈ b58Step ds b, d < 58 := by
  intro ds b d hd
  cases ds with
  | nil => exact carryRun58_lt _ _ d hd
  | cons e rest => exact carryRun58_lt _ _ d hd

theorem b58_foldl : ∀ (bytes ds : List Nat), (∀ d ∈ ds, d < 58) →
    leVal 56 (bytes.foldl b58Step ds) = beValFrom 254 (leVal 56 ds) bytes ∧
    ∀ d ∈ bytes.foldl b58Step ds, d < 58 := by
  intro bytes
  induction bytes with
  | nil => intro ds h; exact ⟨rfl, h⟩
  | cons b bs ih =>
    intro ds h
    have hstep := ih (b58Step ds b) (b58Step_lt ds b)
    rw [List.foldl_cons]
    refine ⟨?_, hstep.2⟩
    rw [hstep.1, b58Step_leVal ds b h]
    rfl

theorem beVal_dropWhile_zero (b2 : Nat) : ∀ (r : List Nat),
    beVal b2 (r.dropWhile (fun d => d == 0)) = beVal b2 r := by
  intro r
  induction r with
  | nil => rfl
  | cons d rs ih =>
    by_cases hd : d = 0
    · subst hd
      rw [List.dropWhile_cons_of_pos (by simp), ih, beVal_cons]
      omega
    · rw [List.dropWhile_cons_of_neg (by simp [hd])]

theorem beVal_reverse (b2 : Nat) : ∀ (l : List Nat), beVal b2 l.reverse = leVal b2 l := by
  intro l
  induction l with
  | nil => rfl
  | cons d ds ih =>
    rw [List.reverse_cons, beVal_append, ih]
    show leVal b2 ds * (b2 + 2) ^ ([d].length) + beVal b2 [d] = d + (b2 + 2) * leVal b2 ds
    rw [beVal_cons]
    show leVal b2 ds * (b2 + 2) ^ 1 + (d * (b2 + 2) ^ (0:Nat) + beVal b2 []) = _
    show leVal b2 ds * (b2 + 2) ^ 1 + (d * (b2 + 2) ^ (0:Nat) + 0) = _
    ring

theorem lastNZ_append_single : ∀ (xs : List Nat) (d : Nat), d ≠ 0 → lastNZ (xs ++ [d]) := by
  intro xs
  induction xs with
  | nil => intro d hd; exact hd
  | cons x xs ih =>
    intro d hd
    cases hx : xs ++ [d] with
    | nil => exact absurd hx (by simp)
    | cons e es =>
      rw [List.cons_append, hx]
      show lastNZ (e :: es)
      rw [← hx]
      exact ih d hd

theorem head_dropWhile_zero : ∀ (r : List Nat),
    (r.dropWhile (fun d => d == 0)).head? ≠ some 0 := by
  intro r
  induction r with
  | nil => simp
  | cons d rs ih =>
    by_cases hd : d = 0
    · subst hd; rw [List.dropWhile_cons_of_pos (by simp)]; exact ih
    · rw [List.dropWhile_cons_of_neg (by simp [hd])]
      simp [hd]

theorem lastNZ_reverse_of_head (t : List Nat) (h : t.head? ≠ some 0) :
    lastNZ t.reverse := by
  cases t with
  | nil => trivial
  | cons e es =>
    rw [List.reverse_cons]
    exact lastNZ_append_single es.reverse e (by simpa using h)

theorem leVal_strip (b2 : Nat) (l : List Nat) :
    leVal b2 (stripTrailingZeros l) = leVal b2 l := by
  have h1 : leVal b2 (stripTrailingZeros l) = beVal b2 (stripTrailingZeros l).reverse := by
    rw [beVal_reverse]
  rw [h1]
  show beVal b2 ((l.reverse.dropWhile (fun d => d == 0)).reverse).reverse = _
  rw [List.reverse_reverse, beVal_dropWhile_zero, beVal_reverse]

theorem lastNZ_strip (l : List Nat) : lastNZ (stripTrailingZeros l) := by
  show lastNZ (l.reverse.dropWhile (fun d => d == 0)).reverse
  exact lastNZ_reverse_of_head _ (head_dropWhile_zero l.reverse)

theorem mem_strip (l : List Nat) (d : Nat) (hd : d ∈ stripTrailingZeros l) : d ∈ l := by
  have h1 : d ∈ l.reverse.dropWhile (fun d => d == 0) := by
    rw [← List.mem_reverse]; exact hd
  have h2 : d ∈ l.reverse := (List.dropWhile_sublist _).subset h1
  rwa [List.mem_reverse] at h2

/-- The base-58 digit list built by the encoder loop is exactly the canonical
base-58 representation of the big-endian value of the input bytes. -/
theorem encode58_digits (bytes : List Nat) :
    stripTrailingZeros (bytes.foldl b58Step [0]) = digitsLE 56 (beVal 254 bytes) := by
  have h0 : ∀ d ∈ ([0] : List Nat), d < 58 := by simp
  have hfold := b58_foldl bytes [0] h0
  have hval : leVal 56 (bytes.foldl b58Step [0]) = beVal 254 bytes := by
    rw [hfold.1]
    show beValFrom 254 (0 + (56 + 2) * leVal 56 []) bytes = _
    show beValFrom 254 (0 + (56 + 2) * 0) bytes = _
    rfl
  have huniq := digitsLE_unique 56 (stripTrailingZeros (bytes.foldl b58Step [0]))
    (fun d hd => hfold.2 d (mem_strip _ d hd)) (lastNZ_strip _)
  rw [leVal_strip, hval] at huniq
  exact huniq.symm

theorem idx58 : ∀ d : Nat, d < 58 → indexOfChar ALPHABET (alpha58 d) = some d := by
  decide

theorem pushBytesGo_cons (fuel v : Nat) (h : v ≠ 0) :
    pushBytesGo (fuel + 1) v = v % 256 :: pushBytesGo fuel (v / 256) := by
  show (if v = 0 then _ else _) = _
  rw [if_neg h]

theorem pushBytesGo_leVal : ∀ (fuel v : Nat), v ≤ fuel →
    leVal 254 (pushBytesGo fuel v) = v := by
  intro fuel
  induction fuel with
  | zero => intro v hv; interval_cases v; rfl
  | succ fuel ih =>
    intro v hv
    by_cases h : v = 0
    · subst h; rfl
    · rw [pushBytesGo_cons fuel v h]
      show v % 256 + (254 + 2) * leVal 254 (pushBytesGo fuel (v / 256)) = v
      rw [ih (v / 256) (by omega)]
      omega

theorem pushBytes_leVal (v : Nat) : leVal 254 (pushBytes v) = v :=
  pushBytesGo_leVal v v le_rfl

theorem pushBytesGo_lt : ∀ (fuel v : Nat), ∀ d ∈ pushBytesGo fuel v, d < 256 := by
  intro fuel
  induction fuel with
  | zero => intro v d hd; simp [pushBytesGo] at hd
  | succ fuel ih =>
    intro v d hd
    by_cases h : v = 0
    · subst h; simp [pushBytesGo] at hd
    · rw [pushBytesGo_cons fuel v h] at hd
      rcases List.mem_cons.mp hd with h1 | h1
      · subst h1; exact Nat.mod_lt _ (by omega)
      · exact ih _ d h1

theorem pushBytes_lt (v : Nat) : ∀ d ∈ pushBytes v, d < 256 :=
  pushBytesGo_lt v v

theorem pushBytesGo_eq_nil (fuel v : Nat) (hv : v ≤ fuel) :
    pushBytesGo fuel v = [] ↔ v = 0 := by
  cases fuel with
  | zero => simp [pushBytesGo]; omega
  | succ fuel =>
    constructor
    · intro h
      by_contra hne
      rw [pushBytesGo_cons fuel v hne] at h
      simp at h
    · intro h; subst h; rfl

theorem pushBytes_eq_nil (v : Nat) : pushBytes v = [] ↔ v = 0 :=
  pushBytesGo_eq_nil v v le_rfl

theorem pushBytesGo_lastNZ : ∀ (fuel v : Nat), v ≤ fuel →
    lastNZ (pushBytesGo fuel v) := by
  intro fuel
  induction fuel with
  | zero => intro v hv; interval_cases v; trivial
  | succ fuel ih =>
    intro v hv
    by_cases h : v = 0
    · subst h; trivial
    · rw [pushBytesGo_cons fuel v h]
      cases htail : pushBytesGo fuel (v / 256) with
      | nil =>
        have hdiv : v / 256 = 0 := (pushBytesGo_eq_nil fuel (v / 256) (by omega)).mp htail
        have hlt : v < 256 := by omega
        show lastNZ [v % 256]
        show v % 256 ≠ 0
        rw [Nat.mod_eq_of_lt hlt]
        exact h
      | cons e es =>
        have := ih (v / 256) (by omega)
        rw [htail] at this
        exact this

theorem pushBytes_lastNZ (v : Nat) : lastNZ (pushBytes v) :=
  pushBytesGo_lastNZ v v le_rfl

theorem b58DecStep_leVal : ∀ (bs : List Nat) (v : Nat),
    leVal 254 (b58DecStep bs v) = 58 * leVal 254 bs + v := by
  intro bs
  induction bs with
  | nil => intro v; show leVal 254 (pushBytes v) = 58 * 0 + v; rw [pushBytes_leVal]; omega
  | cons b bs ih =>
    intro v
    show (v + b * 58) % 256 + (254 + 2) * leVal 254 (b58DecStep bs ((v + b * 58) / 256)) = _
    rw [ih]
    show (v + b * 58) % 256 + 256 * (58 * leVal 254 bs + (v + b * 58) / 256) =
      58 * (b + (254 + 2) * leVal 254 bs) + v
    omega

theorem b58DecStep_lt : ∀ (bs : List Nat) (v : Nat), ∀ d ∈ b58DecStep bs v, d < 256 := by
  intro bs
  induction bs with
  | nil => intro v d hd; exact pushBytes_lt v d hd
  | cons b bs ih =>
    intro v d hd
    rcases List.mem_cons.mp hd with h1 | h1
    · subst h1; exact Nat.mod_lt _ (by omega)
    · exact ih _ d h1

theorem b58DecStep_lastNZ : ∀ (bs : List Nat) (v : Nat), lastNZ bs →
    lastNZ (b58DecStep bs v) := by
  intro bs
  induction bs with
  | nil => intro v _; exact pushBytes_lastNZ v
  | cons b bs ih =>
    intro v hnz
    cases bs with
    | nil =>
      have hb : b ≠ 0 := hnz
      show lastNZ ((v + b * 58) % 256 :: pushBytes ((v + b * 58) / 256))
      cases htail : pushBytes ((v + b * 58) / 256) with
      | nil =>
        have hdiv : (v + b * 58) / 256 = 0 := (pushBytes_eq_nil _).mp htail
        have hlt : v + b * 58 < 256 := by omega
        show lastNZ [(v + b * 58) % 256]
        show (v + b * 58) % 256 ≠ 0
        rw [Nat.mod_eq_of_lt hlt]
        omega
      | cons e es =>
        show lastNZ (e :: es)
        rw [← htail]
        exact pushBytes_lastNZ _
    | cons c cs =>
      have htl : lastNZ (c :: cs) := hnz
      show lastNZ ((v + b * 58) % 256 :: b58DecStep (c :: cs) ((v + b * 58) / 256))
      have hcons : b58DecStep (c :: cs) ((v + b * 58) / 256) =
          ((v + b * 58) / 256 + c * 58) % 256 ::
          b58DecStep cs (((v + b * 58) / 256 + c * 58) / 256) := rfl
      rw [hcons]
      show lastNZ (((v + b * 58) / 256 + c * 58) % 256 ::
        b58DecStep cs (((v + b * 58) / 256 + c * 58) / 256))
      rw [← hcons]
      exact ih _ htl

theorem b58DecStep_digits (m v : Nat) :
    b58DecStep (digitsLE 254 m) v = digitsLE 254 (58 * m + v) := by
  have huniq := digitsLE_unique 254 (b58DecStep (digitsLE 254 m) v)
    (b58DecStep_lt _ v) (b58DecStep_lastNZ _ v (digitsLE_lastNZ 254 m))
  rw [b58DecStep_leVal, leVal_digitsLE] at huniq
  exact huniq.symm

theorem b58DecLoop_digits : ∀ (ds : List Nat) (m : Nat), (∀ d ∈ ds, d < 58) →
    b58DecLoop (ds.map alpha58) (digitsLE 254 m) =
    .ok (digitsLE 254 (beValFrom 56 m ds)) := by
  intro ds
  induction ds with
  | nil => intro m _; rfl
  | cons d ds ih =>
    intro m h
    have hd : d < 58 := h d (List.mem_cons_self d ds)
    show (match indexOfChar ALPHABET (alpha58 d) with
      | none => Except.error Err.invalidBase58Bitcoin
      | some value => b58DecLoop (ds.map alpha58) (b58DecStep (digitsLE 254 m) value)) = _
    rw [idx58 d hd]
    show b58DecLoop (ds.map alpha58) (b58DecStep (digitsLE 254 m) d) = _
    rw [b58DecStep_digits]
    have harith : 58 * m + d = m * (56 + 2) + d := by ring
    rw [harith]
    exact ih (m * (56 + 2) + d) (fun x hx => h x (List.mem_cons_of_mem d hx))

/-- Base58 round-trip on the code as written: decoding an encoding returns
the input bytes with their leading zero bytes removed (this encoder drops
leading zero bytes; there is no leading-`1` preservation). -/
theorem decode58_encode58 (bytes : List Nat) (h : ∀ b ∈ bytes, b < 256) :
    decodeBase58BTC (encodeBase58BTC bytes) =
    .ok (bytes.dropWhile (fun b => b == 0)) := by
  unfold decodeBase58BTC encodeBase58BTC
  rw [encode58_digits]
  have hnil : (digitsLE 254 0) = [] := (digitsLE_eq_nil 254 0).mpr rfl
  have hloop := b58DecLoop_digits (digitsLE 56 (beVal 254 bytes)).reverse 0
    (fun d hd => digitsLE_lt 56 _ d (List.mem_reverse.mp hd))
  rw [hnil] at hloop
  rw [hloop]
  have hval : beValFrom 56 0 (digitsLE 56 (beVal 254 bytes)).reverse = beVal 254 bytes := by
    show beVal 56 (digitsLE 56 (beVal 254 bytes)).reverse = _
    rw [beVal_reverse, leVal_digitsLE]
  rw [hval]
  show Except.ok (digitsLE 254 (beVal 254 bytes)).reverse = _
  have ht : digitsLE 254 (beVal 254 bytes) = (bytes.dropWhile (fun b => b == 0)).reverse := by
    have huniq := digitsLE_unique 254 (bytes.dropWhile (fun b => b == 0)).reverse
      (fun d hd => h d ((List.dropWhile_sublist _).subset (List.mem_reverse.mp hd)))
      (lastNZ_reverse_of_head _ (head_dropWhile_zero bytes))
    have hv2 : leVal 254 (bytes.dropWhile (fun b => b == 0)).reverse = beVal 254 bytes := by
      rw [← beVal_reverse, List.reverse_reverse, beVal_dropWhile_zero]
    rw [hv2] at huniq
    exact huniq
  rw [ht, List.reverse_reverse]

theorem lor_mul_pow_add (k a c : Nat) (h : c < 2 ^ k) :
    Nat.lor (a * 2 ^ k) c = a * 2 ^ k + c := by
  apply Nat.eq_of_testBit_eq
  intro i
  show ((a * 2 ^ k) ||| c).testBit i = (a * 2 ^ k + c).testBit i
  rw [Nat.testBit_lor]
  rcases Nat.lt_or_ge i k with hik | hik
  · obtain ⟨j, hj⟩ : ∃ j, k - i = j + 1 := ⟨k - i - 1, by omega⟩
    have hsplit : a * 2 ^ k = a * 2 ^ (k - i) * 2 ^ i := by
      rw [Nat.mul_assoc, ← pow_add]
      congr 2
      omega
    have hpos : 0 < 2 ^ i := Nat.pos_pow_of_pos i (by omega)
    have heven : a * 2 ^ (k - i) % 2 = 0 := by
      rw [hj, pow_succ, ← Nat.mul_assoc]
      exact Nat.mul_mod_left _ 2
    have h1 : Nat.testBit (a * 2 ^ k) i = false := by
      rw [Nat.testBit_to_div_mod, hsplit, Nat.mul_div_cancel _ hpos]
      simp [heven]
    have h2 : Nat.testBit (a * 2 ^ k + c) i = Nat.testBit c i := by
      rw [Nat.testBit_to_div_mod, Nat.testBit_to_div_mod]
      congr 1
      rw [hsplit, Nat.add_comm, Nat.add_mul_div_right _ _ hpos]
      rw [hj, pow_succ, ← Nat.mul_assoc, Nat.add_mul_mod_self_right]
    rw [h1, h2]
    simp
  · have hc : Nat.testBit c i = false :=
      Nat.testBit_lt_two_pow (Nat.lt_of_lt_of_le h (Nat.pow_le_pow_right (by omega) hik))
    have hpk : 0 < 2 ^ k := Nat.pos_pow_of_pos k (by omega)
    have hsame : Nat.testBit (a * 2 ^ k + c) i = Nat.testBit (a * 2 ^ k) i := by
      rw [Nat.testBit_to_div_mod, Nat.testBit_to_div_mod]
      congr 2
      have h2i : (2:Nat) ^ i = 2 ^ k * 2 ^ (i - k) := by
        rw [← pow_add]
        congr 1
        omega
      rw [h2i, ← Nat.div_div_eq_div_mul, ← Nat.div_div_eq_div_mul]
      congr 1
      rw [Nat.add_comm, Nat.add_mul_div_right _ _ hpk, Nat.div_eq_of_lt h,
        Nat.mul_div_cancel _ hpk]
      rw [Nat.zero_add]
    rw [hc, hsame]
    simp

theorem mod_pow32 (x m : Nat) (h : m ≤ 32) : x % 4294967296 % 2 ^ m = x % 2 ^ m := by
  have hdvd : (2:Nat) ^ m ∣ 4294967296 := by
    have h32 : (4294967296 : Nat) = 2 ^ 32 := by norm_num
    rw [h32]
    exact pow_dvd_pow 2 h
  exact Nat.mod_mod_of_dvd x hdvd

/-- State update of both base32 loops: OR-ing a `w`-bit quantity into the
left-shifted 32-bit accumulator extends the pending bits, as long as at
most 32 bits are live. -/
theorem lor_state (value bits d w : Nat) (hb : bits + w ≤ 32) (hd : d < 2 ^ w) :
    Nat.lor (value * 2 ^ w % 4294967296) d % 2 ^ (bits + w) =
    value % 2 ^ bits * 2 ^ w + d := by
  have h32 : (4294967296 : Nat) = 2 ^ 32 := by norm_num
  have hw32 : w ≤ 32 := by omega
  have hdvd : 2 ^ w ∣ value * 2 ^ w % 4294967296 := by
    rw [h32]
    exact (Nat.dvd_mod_iff (pow_dvd_pow 2 hw32)).mpr (dvd_mul_left _ _)
  obtain ⟨a, ha⟩ := hdvd
  have hlor : Nat.lor (value * 2 ^ w % 4294967296) d = value * 2 ^ w % 4294967296 + d := by
    rw [ha, Nat.mul_comm]
    rw [lor_mul_pow_add w a d hd]
  rw [hlor]
  have hmm : value * 2 ^ w % 4294967296 % 2 ^ (bits + w) = value * 2 ^ w % 2 ^ (bits + w) :=
    mod_pow32 _ _ hb
  rw [Nat.add_mod, hmm, Nat.mod_eq_of_lt (show d < 2 ^ (bits + w) from
    Nat.lt_of_lt_of_le hd (Nat.pow_le_pow_right (by omega) (by omega)))]
  have hsplitpow : (2:Nat) ^ (bits + w) = 2 ^ bits * 2 ^ w := pow_add 2 bits w
  have hmod1 : value * 2 ^ w % 2 ^ (bits + w) = value % 2 ^ bits * 2 ^ w := by
    rw [hsplitpow, Nat.mul_mod_mul_right]
  rw [hmod1]
  apply Nat.mod_eq_of_lt
  rw [hsplitpow]
  have hv : value % 2 ^ bits < 2 ^ bits := Nat.mod_lt _ (Nat.pos_pow_of_pos bits (by omega))
  calc value % 2 ^ bits * 2 ^ w + d
      < value % 2 ^ bits * 2 ^ w + 2 ^ w := by omega
    _ = (value % 2 ^ bits + 1) * 2 ^ w := by ring
    _ ≤ 2 ^ bits * 2 ^ w := Nat.mul_le_mul_right _ (by omega)

theorem b32chr_pat : ∀ i : Nat, i < 32 → b32pat (b32chr i) = i := by
  decide

theorem b32EmitGo_fuel : ∀ (f1 f2 value bits : Nat), bits ≤ f1 → bits ≤ f2 →
    b32EmitGo f1 value bits = b32EmitGo f2 value bits := by
  intro f1
  induction f1 with
  | zero =>
    intro f2 value bits h1 _
    interval_cases bits
    cases f2 with
    | zero => rfl
    | succ f2 =>
      show ([], 0) = if 5 ≤ 0 then _ else ([], 0)
      rw [if_neg (by omega)]
  | succ f1 ih =>
    intro f2 value bits h1 h2
    by_cases h5 : 5 ≤ bits
    · cases f2 with
      | zero => omega
      | succ f2 =>
        show (if 5 ≤ bits then _ else _) = (if 5 ≤ bits then _ else _)
        rw [if_pos h5, if_pos h5, ih f2 value (bits - 5) (by omega) (by omega)]
    · cases f2 with
      | zero =>
        show (if 5 ≤ bits then _ else _) = ([], bits)
        rw [if_neg h5]
      | succ f2 =>
        show (if 5 ≤ bits then _ else _) = (if 5 ≤ bits then _ else _)
        rw [if_neg h5, if_neg h5]

theorem b32Emit_fst (value bits : Nat) (h : 5 ≤ bits) :
    (b32Emit value bits).1 =
    b32chr (value / 2 ^ (bits - 5) % 32) :: (b32Emit value (bits - 5)).1 := by
  unfold b32Emit
  cases bits with
  | zero => omega
  | succ b =>
    have hunf : b32EmitGo (b + 1) value (b + 1) =
        (b32chr (value / 2 ^ (b + 1 - 5) % 32) :: (b32EmitGo b value (b + 1 - 5)).1,
         (b32EmitGo b value (b + 1 - 5)).2) := by
      show (if 5 ≤ b + 1 then _ else _) = _
      rw [if_pos h]
    rw [hunf, b32EmitGo_fuel b (b + 1 - 5) value (b + 1 - 5) (by omega) le_rfl]

theorem b32Emit_snd (value bits : Nat) (h : 5 ≤ bits) :
    (b32Emit value bits).2 = (b32Emit value (bits - 5)).2 := by
  unfold b32Emit
  cases bits with
  | zero => omega
  | succ b =>
    have hunf : b32EmitGo (b + 1) value (b + 1) =
        (b32chr (value / 2 ^ (b + 1 - 5) % 32) :: (b32EmitGo b value (b + 1 - 5)).1,
         (b32EmitGo b value (b + 1 - 5)).2) := by
      show (if 5 ≤ b + 1 then _ else _) = _
      rw [if_pos h]
    rw [hunf, b32EmitGo_fuel b (b + 1 - 5) value (b + 1 - 5) (by omega) le_rfl]

theorem b32Emit_stop (value bits : Nat) (h : ¬ 5 ≤ bits) :
    b32Emit value bits = ([], bits) := by
  unfold b32Emit
  cases bits with
  | zero => rfl
  | succ b =>
    show (if 5 ≤ b + 1 then _ else _) = _
    rw [if_neg h]

theorem b32Emit_mem : ∀ (bits value : Nat), ∀ c ∈ (b32Emit value bits).1, b32pat c < 32 := by
  intro bits
  induction bits using Nat.strong_induction_on with
  | _ bits ih =>
    intro value c hc
    by_cases h5 : 5 ≤ bits
    · rw [b32Emit_fst value bits h5] at hc
      rcases List.mem_cons.mp hc with h1 | h1
      · subst h1
        rw [b32chr_pat _ (Nat.mod_lt _ (by omega))]
        exact Nat.mod_lt _ (by omega)
      · exact ih (bits - 5) (by omega) value c h1
    · rw [b32Emit_stop value bits h5] at hc
      simp at hc

theorem b32Emit_spec : ∀ (bits : Nat), bits ≤ 32 → ∀ (value : Nat),
    (b32Emit value bits).2 < 5 ∧
    5 * (b32Emit value bits).1.length + (b32Emit value bits).2 = bits ∧
    beVal 30 ((b32Emit value bits).1.map b32pat) * 2 ^ (b32Emit value bits).2 +
      value % 2 ^ (b32Emit value bits).2 = value % 2 ^ bits := by
  intro bits
  induction bits using Nat.strong_induction_on with
  | _ bits ih =>
    intro hb value
    by_cases h5 : 5 ≤ bits
    · obtain ⟨ih1, ih2, ih3⟩ := ih (bits - 5) (by omega) (by omega) value
      rw [b32Emit_fst value bits h5, b32Emit_snd value bits h5]
      refine ⟨ih1, ?_, ?_⟩
      · rw [List.length_cons]
        omega
      · rw [List.map_cons, beVal_cons, List.length_map]
        rw [b32chr_pat _ (Nat.mod_lt _ (by omega))]
        set L := (b32Emit value (bits - 5)).1.length with hL
        set e := (b32Emit value (bits - 5)).2 with he
        set B := beVal 30 ((b32Emit value (bits - 5)).1.map b32pat) with hB
        have hexp : (30 + 2 : Nat) ^ L * 2 ^ e = 2 ^ (bits - 5) := by
          have h1 : (30 + 2 : Nat) ^ L = 2 ^ (5 * L) := by
            have h32 : (30 + 2 : Nat) = 2 ^ 5 := by norm_num
            rw [h32, ← pow_mul]
          rw [h1, ← pow_add]
          congr 1
        have hid : value / 2 ^ (bits - 5) % 32 * 2 ^ (bits - 5) + value % 2 ^ (bits - 5)
            = value % 2 ^ bits := by
          have h2 : (2:Nat) ^ bits = 2 ^ (bits - 5) * 32 := by
            have : (32:Nat) = 2 ^ 5 := by norm_num
            rw [this, ← pow_add]
            congr 1
            omega
          rw [h2, Nat.mod_mul]
          ring
        calc (value / 2 ^ (bits - 5) % 32 * (30 + 2) ^ L + B) * 2 ^ e + value % 2 ^ e
            = value / 2 ^ (bits - 5) % 32 * ((30 + 2) ^ L * 2 ^ e) +
              (B * 2 ^ e + value % 2 ^ e) := by ring
          _ = value / 2 ^ (bits - 5) % 32 * 2 ^ (bits - 5) + value % 2 ^ (bits - 5) := by
              rw [hexp, ih3]
          _ = value % 2 ^ bits := hid
    · rw [b32Emit_stop value bits h5]
      refine ⟨by omega, by simp, ?_⟩
      show beVal 30 [] * 2 ^ bits + value % 2 ^ bits = value % 2 ^ bits
      show 0 * 2 ^ bits + value % 2 ^ bits = value % 2 ^ bits
      omega

theorem b32Run_mem : ∀ (data : List Nat) (value bits : Nat),
    ∀ c ∈ (b32Run data value bits).1, b32pat c < 32 := by
  intro data
  induction data with
  | nil => intro value bits c hc; simp [b32Run] at hc
  | cons d ds ih =>
    intro value bits c hc
    rcases List.mem_append.mp hc with h1 | h1
    · exact b32Emit_mem _ _ c h1
    · exact ih _ _ c h1

theorem b32Run_spec : ∀ (data : List Nat), (∀ d ∈ data, d < 256) →
    ∀ (value bits : Nat), bits < 5 →
    (b32Run data value bits).2.2 < 5 ∧
    5 * (b32Run data value bits).1.length + (b32Run data value bits).2.2
      = 8 * data.length + bits ∧
    beVal 30 ((b32Run data value bits).1.map b32pat) * 2 ^ (b32Run data value bits).2.2 +
      (b32Run data value bits).2.1 % 2 ^ (b32Run data value bits).2.2 =
      value % 2 ^ bits * 2 ^ (8 * data.length) + beVal 254 data := by
  intro data
  induction data with
  | nil =>
    intro _ value bits hbits
    refine ⟨hbits, by simp [b32Run], ?_⟩
    show beVal 30 [] * 2 ^ bits + value % 2 ^ bits = value % 2 ^ bits * 2 ^ (8 * 0) + beVal 254 []
    show 0 * 2 ^ bits + value % 2 ^ bits = value % 2 ^ bits * 2 ^ (8 * 0) + 0
    simp
  | cons d ds ih =>
    intro hd value bits hbits
    have hd256 : d < 256 := hd d (List.mem_cons_self d ds)
    set value1 := Nat.lor (value * 256 % 4294967296) d with hv1
    have hrun1 : (b32Run (d :: ds) value bits).1 =
        (b32Emit value1 (bits + 8)).1 ++
        (b32Run ds value1 (b32Emit value1 (bits + 8)).2).1 := rfl
    have hrun21 : (b32Run (d :: ds) value bits).2.1 =
        (b32Run ds value1 (b32Emit value1 (bits + 8)).2).2.1 := rfl
    have hrun22 : (b32Run (d :: ds) value bits).2.2 =
        (b32Run ds value1 (b32Emit value1 (bits + 8)).2).2.2 := rfl
    obtain ⟨he1, he2, he3⟩ := b32Emit_spec (bits + 8) (by omega) value1
    obtain ⟨hr1, hr2, hr3⟩ := ih (fun x hx => hd x (List.mem_cons_of_mem d hx))
      value1 (b32Emit value1 (bits + 8)).2 he1
    rw [hrun1, hrun21, hrun22]
    refine ⟨hr1, ?_, ?_⟩
    · rw [List.length_append, List.length_cons]
      omega
    · rw [List.map_append, beVal_append, List.length_map]
      set e := (b32Emit value1 (bits + 8)).2 with hee
      set r2 := (b32Run ds value1 e).2.2 with hr2e
      set EB := beVal 30 ((b32Emit value1 (bits + 8)).1.map b32pat) with hEB
      set RB := beVal 30 ((b32Run ds value1 e).1.map b32pat) with hRB
      set RL := (b32Run ds value1 e).1.length with hRL
      have hval1 : value1 % 2 ^ (bits + 8) = value % 2 ^ bits * 256 + d := by
        rw [hv1]
        have h256 : (256:Nat) = 2 ^ 8 := by norm_num
        rw [h256]
        exact lor_state value bits d 8 (by omega) (by omega)
      have hexp : (30 + 2 : Nat) ^ RL * 2 ^ r2 = 2 ^ (8 * ds.length) * 2 ^ e := by
        have h1 : (30 + 2 : Nat) ^ RL = 2 ^ (5 * RL) := by
          have h32 : (30 + 2 : Nat) = 2 ^ 5 := by norm_num
          rw [h32, ← pow_mul]
        rw [h1, ← pow_add, ← pow_add]
        congr 1
      have h256L : (254 + 2 : Nat) ^ ds.length = 2 ^ (8 * ds.length) := by
        have : (254 + 2 : Nat) = 2 ^ 8 := by norm_num
        rw [this, ← pow_mul]
      calc (EB * (30 + 2) ^ RL + RB) * 2 ^ r2 + (b32Run ds value1 e).2.1 % 2 ^ r2
          = EB * ((30 + 2) ^ RL * 2 ^ r2) + (RB * 2 ^ r2 +
            (b32Run ds value1 e).2.1 % 2 ^ r2) := by ring
        _ = EB * (2 ^ (8 * ds.length) * 2 ^ e) +
            (value1 % 2 ^ e * 2 ^ (8 * ds.length) + beVal 254 ds) := by rw [hexp, hr3]
        _ = (EB * 2 ^ e + value1 % 2 ^ e) * 2 ^ (8 * ds.length) + beVal 254 ds := by ring
        _ = value1 % 2 ^ (bits + 8) * 2 ^ (8 * ds.length) + beVal 254 ds := by rw [he3]
        _ = (value % 2 ^ bits * 256 + d) * 2 ^ (8 * ds.length) + beVal 254 ds := by rw [hval1]
        _ = value % 2 ^ bits * 2 ^ (8 * (d :: ds).length) + beVal 254 (d :: ds) := by
            rw [beVal_cons, h256L, List.length_cons]
            have h8 : 8 * (ds.length + 1) = 8 * ds.length + 8 := by ring
            rw [h8, pow_add]
            have h28 : (2:Nat) ^ 8 = 256 := by norm_num
            rw [h28]
            ring

theorem encodeBase32RFC_eq (data : List Nat) :
    encodeBase32RFC data =
    if 0 < (b32Run data 0 0).2.2 then
      (b32Run data 0 0).1 ++
        [b32chr ((b32Run data 0 0).2.1 * 2 ^ (5 - (b32Run data 0 0).2.2)
          % 4294967296 % 32)]
    else (b32Run data 0 0).1 := rfl

theorem b32DecGo_cons (c : Char) (cs : List Char) (value bits : Nat) :
    b32DecGo (c :: cs) value bits =
    if 8 ≤ bits + 5 then
      Nat.lor (value * 32 % 4294967296) (b32pat c) / 2 ^ (bits + 5 - 8) % 256 ::
        b32DecGo cs (Nat.lor (value * 32 % 4294967296) (b32pat c)) (bits + 5 - 8)
    else b32DecGo cs (Nat.lor (value * 32 % 4294967296) (b32pat c)) (bits + 5) := rfl

theorem b32DecGo_lt : ∀ (cs : List Char) (value bits : Nat),
    ∀ x ∈ b32DecGo cs value bits, x < 256 := by
  intro cs
  induction cs with
  | nil => intro value bits x hx; simp [b32DecGo] at hx
  | cons c cs ih =>
    intro value bits x hx
    rw [b32DecGo_cons] at hx
    by_cases h8 : 8 ≤ bits + 5
    · rw [if_pos h8] at hx
      rcases List.mem_cons.mp hx with h1 | h1
      · subst h1; exact Nat.mod_lt _ (by omega)
      · exact ih _ _ x h1
    · rw [if_neg h8] at hx
      exact ih _ _ x hx

theorem b32DecGo_spec : ∀ (cs : List Char), (∀ c ∈ cs, b32pat c < 32) →
    ∀ (value bits : Nat), bits < 8 →
    ∃ bf rf, bf < 8 ∧ rf < 2 ^ bf ∧
      8 * (b32DecGo cs value bits).length + bf = 5 * cs.length + bits ∧
      beVal 254 (b32DecGo cs value bits) * 2 ^ bf + rf =
        value % 2 ^ bits * 2 ^ (5 * cs.length) + beVal 30 (cs.map b32pat) := by
  intro cs
  induction cs with
  | nil =>
    intro _ value bits hbits
    refine ⟨bits, value % 2 ^ bits, hbits, Nat.mod_lt _ (Nat.pos_pow_of_pos _ (by omega)),
      by simp [b32DecGo], ?_⟩
    show beVal 254 [] * 2 ^ bits + value % 2 ^ bits = value % 2 ^ bits * 2 ^ (5 * 0) + beVal 30 []
    show 0 * 2 ^ bits + value % 2 ^ bits = value % 2 ^ bits * 2 ^ (5 * 0) + 0
    simp
  | cons c cs ih =>
    intro hvalid value bits hbits
    have hc : b32pat c < 32 := hvalid c (List.mem_cons_self c cs)
    set value1 := Nat.lor (value * 32 % 4294967296) (b32pat c) with hv1
    have hstate : value1 % 2 ^ (bits + 5) = value % 2 ^ bits * 32 + b32pat c := by
      rw [hv1]
      have h32 : (32:Nat) = 2 ^ 5 := by norm_num
      rw [h32]
      exact lor_state value bits (b32pat c) 5 (by omega) (by rw [← h32]; exact hc)
    have hmapc : beVal 30 ((c :: cs).map b32pat) =
        b32pat c * (30 + 2) ^ cs.length + beVal 30 (cs.map b32pat) := by
      rw [List.map_cons, beVal_cons, List.length_map]
    have h32L : (30 + 2 : Nat) ^ cs.length = 2 ^ (5 * cs.length) := by
      have h32 : (30 + 2 : Nat) = 2 ^ 5 := by norm_num
      rw [h32, ← pow_mul]
    by_cases h8 : 8 ≤ bits + 5
    · obtain ⟨bf, rf, hbf, hrf, hlen, hval⟩ :=
        ih (fun x hx => hvalid x (List.mem_cons_of_mem c hx)) value1 (bits + 5 - 8) (by omega)
      refine ⟨bf, rf, hbf, hrf, ?_, ?_⟩
      · rw [b32DecGo_cons, if_pos h8, List.length_cons, List.length_cons, ← hv1]
        omega
      · rw [b32DecGo_cons, if_pos h8, beVal_cons, hmapc]
        set out := b32DecGo cs value1 (bits + 5 - 8) with hout
        set byte := value1 / 2 ^ (bits + 5 - 8) % 256 with hbyte
        have hsplit : byte * 2 ^ (bits + 5 - 8) + value1 % 2 ^ (bits + 5 - 8)
            = value1 % 2 ^ (bits + 5) := by
          have hpow : (2:Nat) ^ (bits + 5) = 2 ^ (bits + 5 - 8) * 256 := by
            have h256 : (256:Nat) = 2 ^ 8 := by norm_num
            rw [h256, ← pow_add]
            congr 1
            omega
          rw [hpow, Nat.mod_mul, hbyte]
          ring
        have h256L : (254 + 2 : Nat) ^ out.length * 2 ^ bf
            = 2 ^ (bits + 5 - 8) * 2 ^ (5 * cs.length) := by
          have h256 : (254 + 2 : Nat) = 2 ^ 8 := by norm_num
          rw [h256, ← pow_mul, ← pow_add, ← pow_add]
          congr 1
          omega
        have hIH : beVal 254 out * 2 ^ bf + rf
            = value1 % 2 ^ (bits + 5 - 8) * 2 ^ (5 * cs.length) + beVal 30 (cs.map b32pat) :=
          hval
        calc (byte * (254 + 2) ^ out.length + beVal 254 out) * 2 ^ bf + rf
            = byte * ((254 + 2) ^ out.length * 2 ^ bf) + (beVal 254 out * 2 ^ bf + rf) := by
              ring
          _ = byte * (2 ^ (bits + 5 - 8) * 2 ^ (5 * cs.length)) +
              (value1 % 2 ^ (bits + 5 - 8) * 2 ^ (5 * cs.length) + beVal 30 (cs.map b32pat)) := by
              rw [h256L, hIH]
          _ = (byte * 2 ^ (bits + 5 - 8) + value1 % 2 ^ (bits + 5 - 8)) * 2 ^ (5 * cs.length)
              + beVal 30 (cs.map b32pat) := by ring
          _ = (value % 2 ^ bits * 32 + b32pat c) * 2 ^ (5 * cs.length)
              + beVal 30 (cs.map b32pat) := by rw [hsplit, hstate]
          _ = value % 2 ^ bits * 2 ^ (5 * (c :: cs).length) +
              (b32pat c * (30 + 2) ^ cs.length + beVal 30 (cs.map b32pat)) := by
              rw [h32L, List.length_cons]
              have h5 : 5 * (cs.length + 1) = 5 * cs.length + 5 := by ring
              rw [h5, pow_add]
              have h25 : (2:Nat) ^ 5 = 32 := by norm_num
              rw [h25]
              ring
    · obtain ⟨bf, rf, hbf, hrf, hlen, hval⟩ :=
        ih (fun x hx => hvalid x (List.mem_cons_of_mem c hx)) value1 (bits + 5) (by omega)
      refine ⟨bf, rf, hbf, hrf, ?_, ?_⟩
      · rw [b32DecGo_cons, if_neg h8, List.length_cons, ← hv1]
        omega
      · rw [b32DecGo_cons, if_neg h8, hmapc]
        calc beVal 254 (b32DecGo cs value1 (bits + 5)) * 2 ^ bf + rf
            = value1 % 2 ^ (bits + 5) * 2 ^ (5 * cs.length) + beVal 30 (cs.map b32pat) := hval
          _ = (value % 2 ^ bits * 32 + b32pat c) * 2 ^ (5 * cs.length)
              + beVal 30 (cs.map b32pat) := by rw [hstate]
          _ = value % 2 ^ bits * 2 ^ (5 * (c :: cs).length) +
              (b32pat c * (30 + 2) ^ cs.length + beVal 30 (cs.map b32pat)) := by
              rw [h32L, List.length_cons]
              have h5 : 5 * (cs.length + 1) = 5 * cs.length + 5 := by ring
              rw [h5, pow_add]
              have h25 : (2:Nat) ^ 5 = 32 := by norm_num
              rw [h25]
              ring

/-- Product cancellation: `X * P + rf = Y * P` with `rf < P` forces
`X = Y` and `rf = 0`. -/
theorem mul_add_cancel_of_lt (X Y rf P : Nat) (_hP : 0 < P) (hrf : rf < P)
    (heq : X * P + rf = Y * P) : X = Y ∧ rf = 0 := by
  rcases Nat.lt_trichotomy X Y with hlt | heqxy | hgt
  · exfalso
    have h1 : (X + 1) * P ≤ Y * P := Nat.mul_le_mul_right P (by omega)
    rw [add_one_mul] at h1
    omega
  · constructor
    · exact heqxy
    · subst heqxy; omega
  · exfalso
    have h1 : (Y + 1) * P ≤ X * P := Nat.mul_le_mul_right P (by omega)
    rw [add_one_mul] at h1
    omega

/-- Base32 round-trip: decoding an encoding gives back the bytes, for every
byte list (leading zero bytes included). -/
theorem decode32_encode32 (data : List Nat) (h : ∀ d ∈ data, d < 256) :
    decodeBase32RFC (encodeBase32RFC data) = data := by
  obtain ⟨hb, hlen, hval⟩ := b32Run_spec data h 0 0 (by omega)
  rw [Nat.zero_mod, Nat.zero_mul, Nat.zero_add] at hval
  rw [encodeBase32RFC_eq]
  unfold decodeBase32RFC
  by_cases hbe : 0 < (b32Run data 0 0).2.2
  · rw [if_pos hbe]
    set r1 := (b32Run data 0 0).1 with hr1
    set vE := (b32Run data 0 0).2.1 with hvE
    set bE := (b32Run data 0 0).2.2 with hbE
    set idx := vE * 2 ^ (5 - bE) % 4294967296 % 32 with hidxdef
    have hidxlt : idx < 32 := Nat.mod_lt _ (by omega)
    have hidx : idx = vE % 2 ^ bE * 2 ^ (5 - bE) := by
      rw [hidxdef]
      have h32 : (32:Nat) = 2 ^ 5 := by norm_num
      rw [h32, mod_pow32 _ 5 (by omega)]
      have hsplit : (2:Nat) ^ 5 = 2 ^ bE * 2 ^ (5 - bE) := by
        rw [← pow_add]
        congr 1
        omega
      rw [hsplit, Nat.mul_mod_mul_right]
    have hvalidfull : ∀ c ∈ r1 ++ [b32chr idx], b32pat c < 32 := by
      intro c hc
      rcases List.mem_append.mp hc with h1 | h1
      · exact b32Run_mem data 0 0 c h1
      · rcases List.mem_singleton.mp h1 with h2
        rw [h2, b32chr_pat idx hidxlt]
        exact hidxlt
    obtain ⟨bf, rf, hbf, hrf, hlen2, hval2⟩ :=
      b32DecGo_spec (r1 ++ [b32chr idx]) hvalidfull 0 0 (by omega)
    rw [Nat.zero_mod, Nat.zero_mul, Nat.zero_add] at hval2
    have hfullval : beVal 30 ((r1 ++ [b32chr idx]).map b32pat)
        = beVal 254 data * 2 ^ (5 - bE) := by
      rw [List.map_append, beVal_append]
      have hsing : beVal 30 ([b32chr idx].map b32pat) = idx := by
        show beVal 30 [b32pat (b32chr idx)] = idx
        rw [b32chr_pat idx hidxlt, beVal_cons]
        show idx * (30 + 2) ^ (0:Nat) + 0 = idx
        ring
      rw [hsing]
      show beVal 30 (r1.map b32pat) * (30 + 2) ^ (1:Nat) + idx = _
      have h321 : (30 + 2 : Nat) ^ (1:Nat) = 2 ^ bE * 2 ^ (5 - bE) := by
        rw [pow_one, ← pow_add]
        have : bE + (5 - bE) = 5 := by omega
        rw [this]
        norm_num
      rw [h321, hidx, ← hval]
      ring
    have hlenfull : 5 * (r1 ++ [b32chr idx]).length = 8 * data.length + (5 - bE) := by
      rw [List.length_append]
      show 5 * (r1.length + [b32chr idx].length) = _
      show 5 * (r1.length + 1) = _
      omega
    rw [hlenfull] at hlen2
    have hbfeq : bf = 5 - bE ∧
        (b32DecGo (r1 ++ [b32chr idx]) 0 0).length = data.length := by
      constructor <;> omega
    rw [hfullval] at hval2
    obtain ⟨heqv, hrf0⟩ := mul_add_cancel_of_lt _ _ rf (2 ^ bf)
      (Nat.pos_pow_of_pos _ (by omega)) hrf
      (by rw [hval2, hbfeq.1])
    apply beVal_inj 254 _ _ (by rw [hbfeq.2]) (b32DecGo_lt _ 0 0) h heqv
  · rw [if_neg hbe]
    have hbE0 : (b32Run data 0 0).2.2 = 0 := by omega
    obtain ⟨bf, rf, hbf, hrf, hlen2, hval2⟩ :=
      b32DecGo_spec (b32Run data 0 0).1 (b32Run_mem data 0 0) 0 0 (by omega)
    rw [Nat.zero_mod, Nat.zero_mul, Nat.zero_add] at hval2
    rw [hbE0] at hlen hval
    rw [pow_zero, Nat.mul_one, Nat.mod_one, Nat.add_zero] at hval
    have hbf0 : bf = 0 ∧ (b32DecGo (b32Run data 0 0).1 0 0).length = data.length := by
      constructor <;> omega
    rw [hbf0.1, pow_zero, Nat.mul_one] at hval2
    have hrf0 : rf = 0 := by
      rw [hbf0.1] at hrf
      omega
    rw [hrf0, Nat.add_zero] at hval2
    apply beVal_inj 254 _ _ (by rw [hbf0.2]) (b32DecGo_lt _ 0 0) h
    rw [hval2, hval]

theorem b64val_chr : ∀ i : Nat, i < 64 → b64val (b64chr i) = i := by
  decide

theorem b64chr_ne_eq : ∀ i : Nat, i < 64 → b64chr i ≠ '=' := by
  decide

theorem b64_swap_roundtrip : ∀ i : Nat, i < 64 →
    (fun c => if c = '_' then '/' else c)
      ((fun c => if c = '-' then '+' else c)
        ((fun c => if c = '/' then '_' else c)
          ((fun c => if c = '+' then '-' else c) (b64chr i)))) = b64chr i := by
  decide

theorem map_id_of_mem (f : Char → Char) :
    ∀ (l : List Char), (∀ c ∈ l, f c = c) → l.map f = l := by
  intro l
  induction l with
  | nil => intro _; rfl
  | cons c cs ih =>
    intro h
    rw [List.map_cons, h c (List.mem_cons_self c cs),
      ih (fun x hx => h x (List.mem_cons_of_mem c hx))]

theorem filter_ne_replicate : ∀ pad : Nat,
    (List.replicate pad '=').filter (fun c => c != '=') = [] := by
  intro pad
  induction pad with
  | zero => rfl
  | succ n ih => rw [List.replicate_succ, List.filter_cons_of_neg (by simp), ih]

/-- Round-trip of the modelled Node base64 codec. -/
theorem nodeB64_roundtrip : ∀ (n : Nat) (bs : List Nat), bs.length ≤ n →
    (∀ b ∈ bs, b < 256) → nodeBase64Decode (nodeBase64Encode bs) = bs := by
  intro n
  induction n with
  | zero =>
    intro bs hlen _
    have : bs = [] := List.length_eq_zero.mp (by omega)
    subst this
    rfl
  | succ n ih =>
    intro bs hlen hb
    match bs with
    | [] => rfl
    | [a] =>
      have ha : a < 256 := hb a (by simp)
      show nodeBase64Decode [b64chr (a / 4), b64chr (a % 4 * 16), '=', '='] = [a]
      rw [nodeBase64Decode]
      rw [if_pos rfl]
      rw [b64val_chr (a / 4) (by omega), b64val_chr (a % 4 * 16) (by omega)]
      congr 1
      omega
    | [a, b] =>
      have ha : a < 256 := hb a (by simp)
      have hbb : b < 256 := hb b (by simp)
      show nodeBase64Decode
        [b64chr (a / 4), b64chr (a % 4 * 16 + b / 16), b64chr (b % 16 * 4), '='] = [a, b]
      rw [nodeBase64Decode]
      rw [if_neg (b64chr_ne_eq (b % 16 * 4) (by omega)), if_pos rfl]
      rw [b64val_chr (a / 4) (by omega), b64val_chr (a % 4 * 16 + b / 16) (by omega),
        b64val_chr (b % 16 * 4) (by omega)]
      have h1 : a / 4 * 4 + (a % 4 * 16 + b / 16) / 16 = a := by omega
      have h2 : (a % 4 * 16 + b / 16) % 16 * 16 + b % 16 * 4 / 4 = b := by omega
      rw [h1, h2]
    | a :: b :: c :: rest =>
      have ha : a < 256 := hb a (by simp)
      have hbb : b < 256 := hb b (by simp)
      have hc : c < 256 := hb c (by simp)
      show nodeBase64Decode
        (b64chr (a / 4) :: b64chr (a % 4 * 16 + b / 16) :: b64chr (b % 16 * 4 + c / 64) ::
          b64chr (c % 64) :: nodeBase64Encode rest) = a :: b :: c :: rest
      rw [nodeBase64Decode]
      rw [if_neg (b64chr_ne_eq (b % 16 * 4 + c / 64) (by omega)),
        if_neg (b64chr_ne_eq (c % 64) (by omega))]
      rw [b64val_chr (a / 4) (by omega), b64val_chr (a % 4 * 16 + b / 16) (by omega),
        b64val_chr (b % 16 * 4 + c / 64) (by omega), b64val_chr (c % 64) (by omega)]
      have h1 : a / 4 * 4 + (a % 4 * 16 + b / 16) / 16 = a := by omega
      have h2 : (a % 4 * 16 + b / 16) % 16 * 16 + (b % 16 * 4 + c / 64) / 4 = b := by omega
      have h3 : (b % 16 * 4 + c / 64) % 4 * 64 + c % 64 = c := by omega
      rw [h1, h2, h3]
      have hrest : rest.length ≤ n := by
        have := hlen
        simp only [List.length_cons] at this
        omega
      rw [ih rest hrest (fun x hx => hb x (by simp [hx]))]

/-- Structure of the modelled Node base64 output: alphabet characters
followed by 0 to 2 padding characters, total length a multiple of 4. -/
theorem nodeB64_structure : ∀ (n : Nat) (bs : List Nat), bs.length ≤ n →
    (∀ b ∈ bs, b < 256) →
    ∃ core pad, nodeBase64Encode bs = core ++ List.replicate pad '=' ∧ pad < 3 ∧
      (core.length + pad) % 4 = 0 ∧ ∀ c ∈ core, ∃ i, i < 64 ∧ c = b64chr i := by
  intro n
  induction n with
  | zero =>
    intro bs hlen _
    have : bs = [] := List.length_eq_zero.mp (by omega)
    subst this
    exact ⟨[], 0, rfl, by omega, by simp, by simp⟩
  | succ n ih =>
    intro bs hlen hbd
    match bs with
    | [] => exact ⟨[], 0, rfl, by omega, by simp, by simp⟩
    | [a] =>
      have ha : a < 256 := hbd a (by simp)
      refine ⟨[b64chr (a / 4), b64chr (a % 4 * 16)], 2, rfl, by omega, by simp, ?_⟩
      intro c hc
      rcases List.mem_cons.mp hc with h1 | h1
      · exact ⟨a / 4, by omega, h1⟩
      · rcases List.mem_singleton.mp (by simpa using h1) with h2
        exact ⟨a % 4 * 16, by omega, h2⟩
    | [a, b] =>
      have ha : a < 256 := hbd a (by simp)
      have hbb : b < 256 := hbd b (by simp)
      refine ⟨[b64chr (a / 4), b64chr (a % 4 * 16 + b / 16), b64chr (b % 16 * 4)], 1,
        rfl, by omega, by simp, ?_⟩
      intro c hc
      rcases List.mem_cons.mp hc with h1 | h1
      · exact ⟨a / 4, by omega, h1⟩
      rcases List.mem_cons.mp h1 with h2 | h2
      · exact ⟨a % 4 * 16 + b / 16, by omega, h2⟩
      · rcases List.mem_singleton.mp h2 with h3
        exact ⟨b % 16 * 4, by omega, h3⟩
    | a :: b :: c :: rest =>
      have ha : a < 256 := hbd a (by simp)
      have hbb : b < 256 := hbd b (by simp)
      have hc256 : c < 256 := hbd c (by simp)
      obtain ⟨core, pad, henc, hpad, hmod, hmem⟩ := ih rest (by
        have := hlen
        simp only [List.length_cons] at this
        omega) (fun x hx => hbd x (by simp [hx]))
      refine ⟨b64chr (a / 4) :: b64chr (a % 4 * 16 + b / 16) ::
        b64chr (b % 16 * 4 + c / 64) :: b64chr (c % 64) :: core, pad, ?_, hpad, ?_, ?_⟩
      · show nodeBase64Encode (a :: b :: c :: rest) = _
        rw [nodeBase64Encode, henc]
        rfl
      · simp only [List.length_cons]
        omega
      · intro x hx
        rcases List.mem_cons.mp hx with h1 | h1
        · exact ⟨a / 4, by omega, h1⟩
        rcases List.mem_cons.mp h1 with h2 | h2
        · exact ⟨a % 4 * 16 + b / 16, by omega, h2⟩
        rcases List.mem_cons.mp h2 with h3 | h3
        · exact ⟨b % 16 * 4 + c / 64, by omega, h3⟩
        rcases List.mem_cons.mp h3 with h4 | h4
        · exact ⟨c % 64, by omega, h4⟩
        · exact hmem x h4

/-- Unfolding of `decodeBase64URL` without let bindings. -/
theorem decodeBase64URL_eq (input : List Char) :
    decodeBase64URL input =
    nodeBase64Decode (
      if 0 < ((input.map (fun c => if c = '-' then '+' else c)).map
          (fun c => if c = '_' then '/' else c)).length % 4
      then ((input.map (fun c => if c = '-' then '+' else c)).map
          (fun c => if c = '_' then '/' else c)) ++
        List.replicate (4 - ((input.map (fun c => if c = '-' then '+' else c)).map
          (fun c => if c = '_' then '/' else c)).length % 4) '='
      else ((input.map (fun c => if c = '-' then '+' else c)).map
          (fun c => if c = '_' then '/' else c))) := rfl

theorem maps4_id : ∀ (l : List Char), (∀ c ∈ l, ∃ i, i < 64 ∧ c = b64chr i) →
    ((((l.map (fun c => if c = '+' then '-' else c)).map
        (fun c => if c = '/' then '_' else c)).map
        (fun c => if c = '-' then '+' else c)).map
        (fun c => if c = '_' then '/' else c)) = l := by
  intro l
  induction l with
  | nil => intro _; rfl
  | cons c cs ih =>
    intro h
    simp only [List.map_cons]
    obtain ⟨i, hi, hieq⟩ := h c (List.mem_cons_self c cs)
    rw [ih (fun x hx => h x (List.mem_cons_of_mem c hx))]
    congr 1
    subst hieq
    exact b64_swap_roundtrip i hi

/-- Base64url round-trip: decoding an encoding gives back the bytes. -/
theorem decode64_encode64 (bs : List Nat) (hb : ∀ b ∈ bs, b < 256) :
    decodeBase64URL (encodeBase64URL bs) = bs := by
  obtain ⟨core, pad, henc, hpad, hmod, hmem⟩ := nodeB64_structure bs.length bs le_rfl hb
  have hcorene : ∀ c ∈ core, (fun c => c != '=') c = true := by
    intro c hc
    obtain ⟨i, hi, hieq⟩ := hmem c hc
    subst hieq
    simpa using b64chr_ne_eq i hi
  have hfilter : (nodeBase64Encode bs).filter (fun c => c != '=') = core := by
    rw [henc, List.filter_append, List.filter_eq_self.mpr hcorene, filter_ne_replicate,
      List.append_nil]
  have hURL : encodeBase64URL bs = (core.map (fun c => if c = '+' then '-' else c)).map
      (fun c => if c = '/' then '_' else c) := by
    unfold encodeBase64URL
    rw [hfilter]
  have hmaps := maps4_id core hmem
  rw [decodeBase64URL_eq, hURL, hmaps]
  have hfin : (if 0 < core.length % 4
      then core ++ List.replicate (4 - core.length % 4) '=' else core)
      = core ++ List.replicate pad '=' := by
    by_cases hz : 0 < core.length % 4
    · rw [if_pos hz]
      congr 2
      omega
    · rw [if_neg hz]
      have : pad = 0 := by omega
      rw [this]
      simp
  rw [hfin, ← henc]
  exact nodeB64_roundtrip bs.length bs le_rfl hb

/-- Claim C2 (amended): for every size `s` with `0 ≤ s < 2^31`,
`bufToNum(numToBuf(s, 16)) == s`.  The original bound 2^53 fails because
`numToBuf` shifts with the JavaScript `>>` operator, which truncates its
operand to a signed 32-bit integer. -/
theorem size_roundtrip (s : Nat) (h : s < 2147483648) :
    bufToNum (numToBuf (s : Int) 16) = s :=
  numToBufLoop_small 16 s h (Nat.lt_trans h (by norm_num))

/-- Witness for the amended claim C2 at the concrete size 300. -/
theorem size_roundtrip_witness : bufToNum (numToBuf ((300 : Nat) : Int) 16) = 300 :=
  size_roundtrip 300 (by norm_num)

/-- Claim C2 counterexample: at `s = 2^32` (inside the claimed range
`[0, 2^53)`) the round-trip fails: `numToBuf` stores the low byte 0 and the
32-bit shift collapses the value to 0, so the encoding is the single byte
`[0]` and decodes to 0, not 2^32. -/
theorem size_roundtrip_cx : bufToNum (numToBuf 4294967296 16) ≠ 4294967296 := by
  decide

theorem encodeCIDWithPrefixZ_eq (bytes : List Nat) :
    encodeCIDWithPrefixZ bytes = 'z' :: encodeBase58BTC bytes := by
  unfold encodeCIDWithPrefixZ
  split <;> rfl

theorem encodeCIDWithPrefixU_eq (bytes : List Nat) :
    encodeCIDWithPrefixU bytes = 'u' :: encodeBase64URL bytes := by
  unfold encodeCIDWithPrefixU
  split <;> rfl

theorem encodeCIDWithPrefixB_eq (bytes : List Nat) :
    encodeCIDWithPrefixB bytes = 'b' :: (encodeBase32RFC bytes).map jsToLower := by
  unfold encodeCIDWithPrefixB
  split <;> rfl

theorem b58DecLoop_err : ∀ (s : List Char) (acc : List Nat) (e : Err),
    b58DecLoop s acc = .error e → e = Err.invalidBase58Bitcoin := by
  intro s
  induction s with
  | nil => intro acc e h; exact absurd h (by simp [b58DecLoop])
  | cons c cs ih =>
    intro acc e h
    rw [b58DecLoop] at h
    cases hidx : indexOfChar ALPHABET c with
    | none =>
      rw [hidx] at h
      cases h
      rfl
    | some v =>
      rw [hidx] at h
      exact ih _ e h

theorem decodeBase58BTC_err (s : List Char) (e : Err)
    (h : decodeBase58BTC s = .error e) : e = Err.invalidBase58Bitcoin := by
  unfold decodeBase58BTC at h
  cases hloop : b58DecLoop s [] with
  | error e2 =>
    rw [hloop] at h
    cases h
    exact b58DecLoop_err s [] e hloop
  | ok bs =>
    rw [hloop] at h
    cases h

/-- Base58 decode fails on any string containing a character outside the
alphabet. -/
theorem b58DecLoop_invalid : ∀ (s : List Char), (∃ c ∈ s, indexOfChar ALPHABET c = none) →
    ∀ acc : List Nat, b58DecLoop s acc = .error Err.invalidBase58Bitcoin := by
  intro s
  induction s with
  | nil => intro h; exact absurd h (by simp)
  | cons c cs ih =>
    intro h acc
    rw [b58DecLoop]
    cases hidx : indexOfChar ALPHABET c with
    | none => rfl
    | some v =>
      obtain ⟨x, hx, hxnone⟩ := h
      rcases List.mem_cons.mp hx with h1 | h1
      · subst h1
        rw [hidx] at hxnone
        cases hxnone
      · exact ih ⟨x, h1, hxnone⟩ _

theorem decodeBase58BTC_invalid (s : List Char)
    (h : ∃ c ∈ s, indexOfChar ALPHABET c = none) :
    decodeBase58BTC s = .error Err.invalidBase58Bitcoin := by
  unfold decodeBase58BTC
  rw [b58DecLoop_invalid s h []]
  rfl

/-- Per-prefix round-trip, `z` form: exact as long as the first byte is
nonzero (leading zero bytes would be dropped by this base58 variant). -/
theorem roundtrip_z (bytes : List Nat) (t : Nat) (hhead : bytes.head? = some t)
    (ht : t ≠ 0) (hb : ∀ b ∈ bytes, b < 256) :
    decodeCIDWithPrefixZ (encodeCIDWithPrefixZ bytes) = .ok bytes := by
  rw [encodeCIDWithPrefixZ_eq]
  unfold decodeCIDWithPrefixZ
  rw [if_pos (by simp)]
  show decodeBase58BTC (encodeBase58BTC bytes) = .ok bytes
  rw [decode58_encode58 bytes hb]
  cases bytes with
  | nil => cases hhead
  | cons x xs =>
    have hx : x = t := by
      have := hhead
      simp at this
      exact this
    subst hx
    rw [List.dropWhile_cons_of_neg (by simp [ht])]

/-- Per-prefix round-trip, `u` form: exact for every byte list. -/
theorem roundtrip_u (bytes : List Nat) (hb : ∀ b ∈ bytes, b < 256) :
    decodeCIDWithPrefixU (encodeCIDWithPrefixU bytes) = .ok bytes := by
  rw [encodeCIDWithPrefixU_eq]
  unfold decodeCIDWithPrefixU
  rw [if_pos (by simp)]
  show Except.ok (decodeBase64URL (encodeBase64URL bytes)) = _
  rw [decode64_encode64 bytes hb]

theorem b32Emit_chr : ∀ (bits value : Nat), ∀ c ∈ (b32Emit value bits).1,
    ∃ i, i < 32 ∧ c = b32chr i := by
  intro bits
  induction bits using Nat.strong_induction_on with
  | _ bits ih =>
    intro value c hc
    by_cases h5 : 5 ≤ bits
    · rw [b32Emit_fst value bits h5] at hc
      rcases List.mem_cons.mp hc with h1 | h1
      · exact ⟨value / 2 ^ (bits - 5) % 32, Nat.mod_lt _ (by omega), h1⟩
      · exact ih (bits - 5) (by omega) value c h1
    · rw [b32Emit_stop value bits h5] at hc
      simp at hc

theorem b32Run_chr : ∀ (data : List Nat) (value bits : Nat),
    ∀ c ∈ (b32Run data value bits).1, ∃ i, i < 32 ∧ c = b32chr i := by
  intro data
  induction data with
  | nil => intro value bits c hc; simp [b32Run] at hc
  | cons d ds ih =>
    intro value bits c hc
    rcases List.mem_append.mp hc with h1 | h1
    · exact b32Emit_chr _ _ c h1
    · exact ih _ _ c h1

theorem encode32_chr (data : List Nat) :
    ∀ c ∈ encodeBase32RFC data, ∃ i, i < 32 ∧ c = b32chr i := by
  intro c hc
  rw [encodeBase32RFC_eq] at hc
  by_cases hbe : 0 < (b32Run data 0 0).2.2
  · rw [if_pos hbe] at hc
    rcases List.mem_append.mp hc with h1 | h1
    · exact b32Run_chr data 0 0 c h1
    · rcases List.mem_singleton.mp h1 with h2
      exact ⟨_, Nat.mod_lt _ (by omega), h2⟩
  · rw [if_neg hbe] at hc
    exact b32Run_chr data 0 0 c hc

theorem b32_lower_upper : ∀ i : Nat, i < 32 → jsToUpper (jsToLower (b32chr i)) = b32chr i := by
  decide

theorem b32_not_lower : ∀ i : Nat, i < 32 →
    (decide ('a' ≤ b32chr i) && decide (b32chr i ≤ 'z')) = false := by
  decide

theorem b32_lower_fix : ∀ i : Nat, i < 32 →
    (decide ('a' ≤ jsToLower (b32chr i)) && decide (jsToLower (b32chr i) ≤ 'z')) = false →
    jsToLower (b32chr i) = b32chr i := by
  decide

theorem hasLowerCase_cons_b (s : List Char) : hasLowerCase ('b' :: s) = true := by
  unfold hasLowerCase
  rw [List.any_cons]
  rw [show (decide ('a' ≤ 'b') && decide ('b' ≤ 'z')) = true from by decide]
  rfl

theorem hasLowerCase_body (data : List Nat) :
    hasLowerCase (encodeBase32RFC data) = false := by
  unfold hasLowerCase
  rw [List.any_eq_false]
  intro c hc
  obtain ⟨i, hi, hieq⟩ := encode32_chr data c hc
  subst hieq
  simp [b32_not_lower i hi]

theorem decodeBStep1_b (s : List Char) : decodeBStep1 ('b' :: s) = 'b' :: s := by
  unfold decodeBStep1
  rw [if_neg]
  intro h
  have := h.1
  simp at this

theorem decodeBStep2_b (s : List Char) (h : hasLowerCase ('b' :: s) = true) :
    decodeBStep2 ('b' :: s) = s := by
  unfold decodeBStep2
  rw [if_pos ⟨by simp, h⟩]
  rfl

/-- Decoding the `b` form with the canonical uppercase base32 body. -/
theorem decodeB_body (data : List Nat) :
    decodeCIDWithPrefixB ('b' :: encodeBase32RFC data)
    = decodeBase32RFC (encodeBase32RFC data) := by
  unfold decodeCIDWithPrefixB
  rw [decodeBStep1_b, decodeBStep2_b _ (hasLowerCase_cons_b _)]
  unfold decodeBStep3
  rw [if_neg (by rw [hasLowerCase_body]; simp)]

/-- Decoding the `b` form with the lowercased body (the form the encoder
produces). -/
theorem decodeB_lower_body (data : List Nat) :
    decodeCIDWithPrefixB ('b' :: (encodeBase32RFC data).map jsToLower)
    = decodeBase32RFC (encodeBase32RFC data) := by
  unfold decodeCIDWithPrefixB
  rw [decodeBStep1_b, decodeBStep2_b _ (hasLowerCase_cons_b _)]
  unfold decodeBStep3
  by_cases hlow : hasLowerCase ((encodeBase32RFC data).map jsToLower) = true
  · rw [if_pos hlow, List.map_map]
    congr 1
    apply map_id_of_mem
    intro c hc
    obtain ⟨i, hi, hieq⟩ := encode32_chr data c hc
    subst hieq
    exact b32_lower_upper i hi
  · rw [if_neg hlow]
    congr 1
    apply map_id_of_mem
    intro c hc
    obtain ⟨i, hi, hieq⟩ := encode32_chr data c hc
    subst hieq
    apply b32_lower_fix i hi
    rw [Bool.not_eq_true] at hlow
    unfold hasLowerCase at hlow
    rw [List.any_eq_false] at hlow
    have hmem := List.mem_map_of_mem jsToLower hc
    have := hlow (jsToLower (b32chr i)) hmem
    simpa using this

/-- Per-prefix round-trip, `b` form. -/
theorem roundtrip_b (bytes : List Nat) (hb : ∀ b ∈ bytes, b < 256) :
    decodeCIDWithPrefixB (encodeCIDWithPrefixB bytes) = bytes := by
  rw [encodeCIDWithPrefixB_eq, decodeB_lower_body, decode32_encode32 bytes hb]

theorem registered_ne_zero : ∀ t ∈ registeredCidTypes, t ≠ 0 := by
  decide

/-- Round-trip of every textual CID form on a valid CID binary. -/
theorem roundtrip_cid (p : CidForm) (c : List Nat) (t : Nat)
    (hb : ∀ b ∈ c, b < 256) (hhead : c.head? = some t)
    (ht : t ∈ registeredCidTypes) :
    decodeCID p (encodeCID p c) = .ok c := by
  cases p with
  | z => exact roundtrip_z c t hhead (registered_ne_zero t ht) hb
  | u => exact roundtrip_u c hb
  | b =>
    show Except.ok (decodeCIDWithPrefixB (encodeCIDWithPrefixB c)) = _
    rw [roundtrip_b c hb]

theorem mhashSearch_none : ∀ (fuel : Nat) (len i hashSize : Int),
    hashSize < 33 → 0 ≤ i → len ≤ 33 → mhashSearch len i hashSize fuel = none := by
  intro fuel
  induction fuel with
  | zero => intro len i hs _ _ _; rfl
  | succ fuel ih =>
    intro len i hs h1 h2 h3
    show (if hs = 33 then some hs else mhashSearch len (i + 1) (len - (i + 1)) fuel) = none
    rw [if_neg (by omega)]
    exact ih len (i + 1) (len - (i + 1)) (by omega) (by omega) h3

/-- Claim C1: for every valid binary CID (length at least 34 bytes, first
byte a registered type tag, all elements bytes) and every ordered pair of
prefixes, decoding the first encoding, re-encoding with the second prefix
and decoding again returns exactly the original bytes. -/
theorem cross_form_equivalence (c : List Nat) (t : Nat) (_h34 : 34 ≤ c.length)
    (hb : ∀ b ∈ c, b < 256) (hhead : c.head? = some t)
    (ht : t ∈ registeredCidTypes) (p1 p2 : CidForm) :
    (decodeCID p1 (encodeCID p1 c)).bind (fun y => decodeCID p2 (encodeCID p2 y))
      = .ok c := by
  rw [roundtrip_cid p1 c t hb hhead ht]
  show decodeCID p2 (encodeCID p2 c) = .ok c
  exact roundtrip_cid p2 c t hb hhead ht

/-- Witness for claim C1 at the 35-byte raw CID of the concrete scenario,
with the pair (b, z). -/
theorem cross_form_equivalence_witness :
    (decodeCID CidForm.b (encodeCID CidForm.b
        (generateCIDFromMHash (generateMHashFromB3hash (List.replicate 32 0)) 5))).bind
      (fun y => decodeCID CidForm.z (encodeCID CidForm.z y))
      = .ok (generateCIDFromMHash (generateMHashFromB3hash (List.replicate 32 0)) 5) :=
  cross_form_equivalence _ cidTypeRaw (by decide) (by decide) (by decide) (by decide)
    CidForm.b CidForm.z

/-- Claim C3 counterexample: the byte sequence `[0]` encodes to the empty
base58 string, which decodes to `[]`, not `[0]`: leading zero bytes are
dropped. -/
theorem base58_roundtrip_cx :
    decodeBase58BTC (encodeBase58BTC [0]) ≠ .ok [0] := by
  decide

/-- Claim C3 (amended): base32 and base64url round-trip exactly for every
byte sequence; base58 round-trips up to the loss of leading zero bytes
(this encoder drops them and does not emit leading `1` characters). -/
theorem codec_roundtrips (bs : List Nat) (h : ∀ b ∈ bs, b < 256) :
    decodeBase58BTC (encodeBase58BTC bs) = .ok (bs.dropWhile (fun b => b == 0)) ∧
    decodeBase32RFC (encodeBase32RFC bs) = bs ∧
    decodeBase64URL (encodeBase64URL bs) = bs :=
  ⟨decode58_encode58 bs h, decode32_encode32 bs h, decode64_encode64 bs h⟩

/-- Witness for the amended claim C3 at `[0, 7, 255]`. -/
theorem codec_roundtrips_witness :
    decodeBase58BTC (encodeBase58BTC [0, 7, 255])
      = .ok (([0, 7, 255] : List Nat).dropWhile (fun b => b == 0)) ∧
    decodeBase32RFC (encodeBase32RFC [0, 7, 255]) = [0, 7, 255] ∧
    decodeBase64URL (encodeBase64URL [0, 7, 255]) = [0, 7, 255] :=
  codec_roundtrips [0, 7, 255] (by decide)

/-- Claim C4: at the failing input of 33 zero bytes (shorter than the
34-byte minimum) no `MalformedCID` error is raised: the hash-size search
of `extractMHashFromCID` and `extractB3hashFromCID` never terminates (it
returns `none` for every fuel), and `extractRawSizeFromCID` silently
returns 0. -/
theorem short_cid_no_error : ∀ fuel : Nat,
    extractMHashFromCID (List.replicate 33 0) fuel = none ∧
    extractB3hashFromCID (List.replicate 33 0) fuel = none ∧
    extractRawSizeFromCID (List.replicate 33 0) = 0 := by
  intro fuel
  have hsearch : mhashSearch ((List.replicate 33 (0:Nat)).length : Int) 0
      (((List.replicate 33 (0:Nat)).length : Int) - 1) fuel = none := by
    apply mhashSearch_none fuel
    · simp
    · omega
    · simp
  refine ⟨?_, ?_, by decide⟩
  · unfold extractMHashFromCID
    rw [hsearch]
  · unfold extractB3hashFromCID
    rw [hsearch]

/-- Claim C5 counterexample: `decodeBase32RFC` does not fail on the
out-of-alphabet character `!`; it returns actual bytes (the OR with the
pattern of `-1` makes the output byte 255). -/
theorem decode32_invalid_cx : decodeBase32RFC ['A', '!'] = [255] := by
  decide

/-- Claim C5 (amended): only `decodeBase58BTC` validates its input: it
fails on every string containing an out-of-alphabet character, while
`decodeBase32RFC` has no validation at all and returns a byte buffer (for
a single out-of-alphabet character, the empty buffer). -/
theorem decoder_validation :
    (∀ s : List Char, (∃ c ∈ s, indexOfChar ALPHABET c = none) →
      decodeBase58BTC s = .error Err.invalidBase58Bitcoin) ∧
    decodeBase32RFC ['!'] = ([] : List Nat) :=
  ⟨fun s h => decodeBase58BTC_invalid s h, by decide⟩

/-- Witness for the amended claim C5 at the string `0` (the character `0`
is not in the base58 alphabet). -/
theorem decoder_validation_witness :
    decodeBase58BTC ['0'] = .error Err.invalidBase58Bitcoin :=
  decoder_validation.1 ['0'] (by decide)

/-- Claim C6: for a textual CID of any of the three prefixes whose binary
form has size field 0, `convertS5CidToB3hashHex` fails (with the throw the
spec calls `NoDigestAvailable`) instead of returning a hex string. -/
theorem zero_size_digest_unavailable (cid : List Char) (bs : List Nat) (fuel : Nat)
    (hdec : (cid.head? = some 'z' ∧ decodeCIDWithPrefixZ cid = .ok bs) ∨
      (cid.head? = some 'u' ∧ decodeCIDWithPrefixU cid = .ok bs) ∨
      (cid.head? = some 'b' ∧ decodeCIDWithPrefixB cid = bs))
    (hsize : extractRawSizeFromCID bs = 0) :
    convertS5CidToB3hashHex cid fuel = some (.error Err.invalidCIDInputAddress) := by
  unfold convertS5CidToB3hashHex
  rcases hdec with ⟨h1, h2⟩ | ⟨h1, h2⟩ | ⟨h1, h2⟩
  · rw [if_pos h1, h2]
    show (if extractRawSizeFromCID bs ≠ 0 then _ else _) = _
    rw [if_neg (by simp [hsize])]
  · rw [if_neg (by rw [h1]; simp), if_pos h1, h2]
    show (if extractRawSizeFromCID bs ≠ 0 then _ else _) = _
    rw [if_neg (by simp [hsize])]
  · rw [if_neg (by rw [h1]; simp), if_neg (by rw [h1]; simp), if_pos h1, h2]
    show (if extractRawSizeFromCID bs ≠ 0 then _ else _) = _
    rw [if_neg (by simp [hsize])]

/-- Witness for claim C6: the `b` form of a 34-byte raw CID with an empty
(zero) size field. -/
theorem zero_size_digest_unavailable_witness :
    convertS5CidToB3hashHex
      (encodeCIDWithPrefixB (cidTypeRaw :: mhashBlake3Default :: List.replicate 32 0)) 9
      = some (.error Err.invalidCIDInputAddress) :=
  zero_size_digest_unavailable _ (cidTypeRaw :: mhashBlake3Default :: List.replicate 32 0) 9
    (Or.inr (Or.inr ⟨by decide, by decide⟩)) (by decide)

/-- Claim C7 counterexample: the packed CID of the concrete scenario has
35 bytes (1 type byte + 33 multihash bytes + 1 size byte), not the 36 the
claim states. -/
theorem concrete_raw_cid_length_cx :
    (generateCIDFromMHash (generateMHashFromB3hash (List.replicate 32 0)) 5).length ≠ 36 := by
  decide

/-- Claim C7 (amended): the concrete scenario with a 32-zero-byte digest,
the default BLAKE3 id, the raw type tag and size 5: the packed CID has
exactly 35 bytes (type byte + 33-byte multihash + 1-byte size field), its
`z` encoding starts with `z`, decoding that text recovers the bytes
exactly, and the extracted size is 5. -/
theorem concrete_raw_cid_scenario :
    (generateCIDFromMHash (generateMHashFromB3hash (List.replicate 32 0)) 5).length = 35 ∧
    (encodeCIDWithPrefixZ
      (generateCIDFromMHash (generateMHashFromB3hash (List.replicate 32 0)) 5)).head?
      = some 'z' ∧
    decodeCIDWithPrefixZ (encodeCIDWithPrefixZ
      (generateCIDFromMHash (generateMHashFromB3hash (List.replicate 32 0)) 5))
      = .ok (generateCIDFromMHash (generateMHashFromB3hash (List.replicate 32 0)) 5) ∧
    extractRawSizeFromCID
      (generateCIDFromMHash (generateMHashFromB3hash (List.replicate 32 0)) 5) = 5 := by
  decide

/-- Claim C8 counterexample: `http://example.com` has no subdomain, yet the
conversion returns the first label `example` instead of failing. -/
theorem convert_directory_cx :
    convertDownloadDirectoryInputCid
      ['h', 't', 't', 'p', ':', '/', '/', 'e', 'x', 'a', 'm', 'p', 'l', 'e', '.',
       'c', 'o', 'm']
      = .ok ['e', 'x', 'a', 'm', 'p', 'l', 'e'] := by
  decide

/-- Claim C8 (amended): for URL inputs the regex capture (the first label
before a dot, whether or not it is a subdomain) is returned unchanged when
it exists and the conversion fails when it does not; non-URL inputs whose
first character is none of z, u, b fail as claimed. -/
theorem convert_directory_behavior :
    (∀ url lab : List Char, startsWithHttp url = true →
      getSubdomainFromUrl url = some lab →
      convertDownloadDirectoryInputCid url = .ok lab) ∧
    (∀ url : List Char, startsWithHttp url = true → getSubdomainFromUrl url = none →
      convertDownloadDirectoryInputCid url = .error Err.invalidCIDInputAddress) ∧
    (∀ s : List Char, startsWithHttp s = false → s.head? ≠ some 'z' →
      s.head? ≠ some 'u' → s.head? ≠ some 'b' →
      convertDownloadDirectoryInputCid s = .error Err.invalidCIDInputAddress) := by
  refine ⟨?_, ?_, ?_⟩
  · intro url lab h1 h2
    unfold convertDownloadDirectoryInputCid
    rw [if_pos h1, h2]
  · intro url h1 h2
    unfold convertDownloadDirectoryInputCid
    rw [if_pos h1, h2]
  · intro s h1 h2 h3 h4
    unfold convertDownloadDirectoryInputCid
    rw [if_neg (by simp [h1]), if_neg h2, if_neg h3, if_neg h4]

/-- Witness for the amended claim C8 at `http://sub.example.com` (label
returned), `http://localhost` (no match, error) and `xyz` (bad prefix,
error). -/
theorem convert_directory_behavior_witness :
    convertDownloadDirectoryInputCid
      ['h', 't', 't', 'p', ':', '/', '/', 's', 'u', 'b', '.', 'e', 'x', 'a', 'm',
       'p', 'l', 'e', '.', 'c', 'o', 'm'] = .ok ['s', 'u', 'b'] ∧
    convertDownloadDirectoryInputCid
      ['h', 't', 't', 'p', ':', '/', '/', 'l', 'o', 'c', 'a', 'l', 'h', 'o', 's',
       't'] = .error Err.invalidCIDInputAddress ∧
    convertDownloadDirectoryInputCid ['x', 'y', 'z']
      = .error Err.invalidCIDInputAddress :=
  ⟨convert_directory_behavior.1 _ _ (by decide) (by decide),
   convert_directory_behavior.2.1 _ (by decide) (by decide),
   convert_directory_behavior.2.2 _ (by decide) (by decide) (by decide) (by decide)⟩

/-- Claim C9: the `b` decoder maps the uppercase-body and lowercase-body
writings of the base32 form of any byte sequence to the same binary value. -/
theorem b_case_tolerance (bs : List Nat) :
    decodeCIDWithPrefixB ('b' :: encodeBase32RFC bs)
      = decodeCIDWithPrefixB ('b' :: (encodeBase32RFC bs).map jsToLower) := by
  rw [decodeB_body, decodeB_lower_body]

/-- Claim C10: when the first character is not the expected prefix, the
`z` and `u` decoders decode the whole string with the base codec, and the
trailing `invalid format` throws are unreachable for every input. -/
theorem prefix_mismatch_dead_branch (cid : List Char) :
    (cid.head? ≠ some 'z' → decodeCIDWithPrefixZ cid = decodeBase58BTC cid) ∧
    (cid.head? ≠ some 'u' → decodeCIDWithPrefixU cid = .ok (decodeBase64URL cid)) ∧
    decodeCIDWithPrefixZ cid ≠ .error Err.invalidInputAddress ∧
    decodeCIDWithPrefixU cid ≠ .error Err.invalidUCidFormat := by
  refine ⟨?_, ?_, ?_, ?_⟩
  · intro h
    unfold decodeCIDWithPrefixZ
    rw [if_neg h, if_pos h]
  · intro h
    unfold decodeCIDWithPrefixU
    rw [if_neg h, if_pos h]
  · unfold decodeCIDWithPrefixZ
    by_cases h : cid.head? = some 'z'
    · rw [if_pos h]
      intro hcontra
      exact absurd (decodeBase58BTC_err _ _ hcontra) (by decide)
    · rw [if_neg h, if_pos h]
      intro hcontra
      exact absurd (decodeBase58BTC_err _ _ hcontra) (by decide)
  · unfold decodeCIDWithPrefixU
    by_cases h : cid.head? = some 'u'
    · rw [if_pos h]
      simp
    · rw [if_neg h, if_pos h]
      simp

/-- Witness for claim C10 at the one-character string `a`. -/
theorem prefix_mismatch_dead_branch_witness :
    decodeCIDWithPrefixZ ['a'] = decodeBase58BTC ['a'] ∧
    decodeCIDWithPrefixU ['a'] = .ok (decodeBase64URL ['a']) :=
  ⟨(prefix_mismatch_dead_branch ['a']).1 (by decide),
   (prefix_mismatch_dead_branch ['a']).2.1 (by decide)⟩

end S5
